import Mathlib

/-!
Verification of the `ljd` LuaJIT decompiler sources (`ljd/ast/nodes.py` and
`ljd/tools.py`) against their natural-language specification.

The Python AST is a graph of heap objects: nodes hold attributes, attributes
hold plain values, lists, `None`, or references to other nodes, and warp
fields make the graph cyclic.  We embed it as an explicit heap: natural
numbers are object identities, a `Node` is a class tag plus an attribute
association list, and a `Value` is anything an attribute can hold.

Serialization (`to_dict` / `load_dict`), the visitor dispatch, the operator
tables of `BinaryOperator` / `UnaryOperator`, and the pipeline driver of
`tools.py` are each translated below, line by line from the source.  The
recursive traversals take an explicit fuel argument because the heap may be
cyclic; every theorem that consumes a traversal takes the successful result
as a hypothesis, so no fact ever depends on a particular fuel bound.
-/

namespace LJD

/-- The class tags of every `AstNode` subclass defined in `ljd/ast/nodes.py`. -/
inductive ClassName where
  | FunctionDefinition
  | Block
  | TableConstructor
  | ArrayRecord
  | TableRecord
  | Assignment
  | BinaryOperator
  | UnaryOperator
  | StatementsList
  | IdentifiersList
  | RecordsList
  | VariablesList
  | ExpressionsList
  | Identifier
  | MULTRES
  | GetItem
  | Vararg
  | FunctionCall
  | If
  | ElseIf
  | UnconditionalWarp
  | ConditionalWarp
  | IteratorWarp
  | NumericLoopWarp
  | EndWarp
  | Return
  | Break
  | While
  | RepeatUntil
  | NumericFor
  | IteratorFor
  | Constant
  | Primitive
  | NoOp
deriving DecidableEq

/-- A value held by an attribute of a Python AST object: `None`, an `int`, a
`bool`, a `str`, a list, or a reference to another AST node. -/
inductive Value where
  | vnil : Value
  | vint (n : Int) : Value
  | vbool (b : Bool) : Value
  | vstr (s : String) : Value
  | vlist (vs : List Value) : Value
  | vref (i : Nat) : Value

/-- One AST object: its class and its attribute dictionary. -/
structure Node where
  cls : ClassName
  attrs : List (String × Value)

/-- The object heap: identity-keyed store of AST objects. -/
abbrev Heap := List (Nat × Node)

/-- First-match association-list lookup over `Nat` keys. -/
def lk {α : Type} : List (Nat × α) → Nat → Option α
  | [], _ => none
  | (k, v) :: rest, i => if i = k then some v else lk rest i

/-- First-match association-list lookup over `String` keys. -/
def lks {α : Type} : List (String × α) → String → Option α
  | [], _ => none
  | (k, v) :: rest, name => if name = k then some v else lks rest name

/-- The `getattr(obj, name, None)` of the source: a missing attribute reads
as `None`. -/
def getAttr (n : Node) (name : String) : Value :=
  (lks n.attrs name).getD Value.vnil

/-- `setattr`: replace the attribute if present, append it otherwise. -/
def attrsSet : List (String × Value) → String → Value → List (String × Value)
  | [], name, v => [(name, v)]
  | (k, w) :: rest, name, v =>
    if k = name then (k, v) :: rest else (k, w) :: attrsSet rest name v

/-- `setattr` on a whole node. -/
def setAttr (n : Node) (name : String) (v : Value) : Node :=
  ⟨n.cls, attrsSet n.attrs name v⟩

/-- The `_slots` list of each class, inherited fields included
(`ljd/ast/nodes.py`: every `_slots = [...]` declaration). -/
def slotsOf : ClassName → List String
  | .FunctionDefinition => ["arguments", "statements"]
  | .Block => ["index", "first_address", "last_address", "contents", "warp", "loop"]
  | .TableConstructor => ["array", "records"]
  | .ArrayRecord => ["value"]
  | .TableRecord => ["key", "value"]
  | .Assignment => ["destinations", "expressions"]
  | .BinaryOperator => ["left", "type", "right"]
  | .UnaryOperator => ["type", "operand"]
  | .StatementsList => ["contents"]
  | .IdentifiersList => ["contents"]
  | .RecordsList => ["contents"]
  | .VariablesList => ["contents"]
  | .ExpressionsList => ["contents"]
  | .Identifier => ["name", "type", "slot", "id"]
  | .MULTRES => []
  | .GetItem => ["table", "key"]
  | .Vararg => []
  | .FunctionCall => ["function", "arguments", "is_method"]
  | .If => ["expression", "then_block", "elseifs", "else_block"]
  | .ElseIf => ["expression", "then_block"]
  | .UnconditionalWarp => ["type", "target", "is_uclo"]
  | .ConditionalWarp => ["condition", "true_target", "false_target"]
  | .IteratorWarp => ["variables", "controls", "body", "way_out"]
  | .NumericLoopWarp => ["index", "controls", "body", "way_out"]
  | .EndWarp => []
  | .Return => ["returns"]
  | .Break => []
  | .While => ["expression", "statements"]
  | .RepeatUntil => ["expression", "statements"]
  | .NumericFor => ["variable", "expression", "statements"]
  | .IteratorFor => ["expressions", "expression", "statements"]
  | .Constant => ["type", "value"]
  | .Primitive => ["type"]
  | .NoOp => []

/-! ## Serialization: `to_dict` (`ljd/ast/nodes.py`, lines 26 to 43)

`to_dict` turns the object graph into a tagged dictionary tree.  The shared
`visited` set of object ids makes every second occurrence of a node a
`Ref` dictionary, which is how cycles and sharing are encoded. -/

/-- The tagged dictionary trees `to_dict` produces: plain values, lists,
full node dictionaries carrying class name and `_id`, and `Ref` markers. -/
inductive DictVal where
  | dnil : DictVal
  | dint (n : Int) : DictVal
  | dbool (b : Bool) : DictVal
  | dstr (s : String) : DictVal
  | dlist (ds : List DictVal) : DictVal
  | dref (i : Nat) : DictVal
  | dnode (cls : ClassName) (i : Nat) (slots : List (String × DictVal)) : DictVal

/-- State-threading map over a list, failing when the step fails: the shape
of the list comprehension `[to_dict(item, visited) for item in obj]` with
the shared mutable `visited` set threaded explicitly. -/
def mapStateM {σ α β : Type} (g : σ → α → Option (β × σ)) :
    σ → List α → Option (List β × σ)
  | s, [] => some ([], s)
  | s, a :: as =>
    match g s a with
    | none => none
    | some (b, s') =>
      match mapStateM g s' as with
      | none => none
      | some (bs, s'') => some (b :: bs, s'')

/-- The `for name in obj._slots: d[name] = to_dict(getattr(obj, name, None),
visited)` loop, threading the visited set. -/
def slotsDict (g : List Nat → Value → Option (DictVal × List Nat)) (n : Node) :
    List Nat → List String → Option (List (String × DictVal) × List Nat)
  | vis, [] => some ([], vis)
  | vis, name :: names =>
    match g vis (getAttr n name) with
    | none => none
    | some (d, vis') =>
      match slotsDict g n vis' names with
      | none => none
      | some (ds, vis'') => some ((name, d) :: ds, vis'')

/-- `to_dict(obj, visited)`.  Lists map elementwise; non-node values pass
through; an already-visited node becomes a `Ref`; otherwise the node id is
added to `visited` and the `_slots` attributes are serialized in order.
The fuel argument only bounds the recursion depth of the embedding. -/
def toDict (H : Heap) : Nat → List Nat → Value → Option (DictVal × List Nat)
  | 0, _, _ => none
  | _ + 1, vis, .vnil => some (.dnil, vis)
  | _ + 1, vis, .vint n => some (.dint n, vis)
  | _ + 1, vis, .vbool b => some (.dbool b, vis)
  | _ + 1, vis, .vstr s => some (.dstr s, vis)
  | f + 1, vis, .vlist vs =>
    match mapStateM (toDict H f) vis vs with
    | none => none
    | some (ds, vis') => some (.dlist ds, vis')
  | f + 1, vis, .vref i =>
    if i ∈ vis then some (.dref i, vis)
    else
      match lk H i with
      | none => none
      | some n =>
        match slotsDict (toDict H f) n (i :: vis) (slotsOf n.cls) with
        | none => none
        | some (ds, vis') => some (.dnode n.cls i ds, vis')

/-! ## Deserialization: `load_dict` (`ljd/ast/nodes.py`, lines 46 to 61)

`load_dict` rebuilds fresh objects.  For a full node dictionary it runs the
class constructor (`subcls()`), records the original id in `mapping`, and
then `setattr`s every serialized slot; a `Ref` dictionary resolves through
`mapping`.  The source declares `mapping={}` as a default argument; a
top-level call of `AstNode.load_dict` on one serialized tree sees it empty,
which is the state the embedding starts from. -/

/-- The state of a `load_dict` run: the freshly built object heap, the
mapping from original ids to new objects, and the allocator. -/
structure LState where
  heap : Heap
  mapping : List (Nat × Nat)
  next : Nat

/-- Allocate one fresh object. -/
def alloc (cls : ClassName) (attrs : List (String × Value)) (st : LState) :
    Nat × LState :=
  (st.next, ⟨(st.next, ⟨cls, attrs⟩) :: st.heap, st.mapping, st.next + 1⟩)

/-- Allocate a list of helper objects in order. -/
def allocList : List (ClassName × List (String × Value)) → LState → LState
  | [], st => st
  | (cls, attrs) :: rest, st => allocList rest (alloc cls attrs st).2

/-- The default attributes of a fresh `Identifier()` (`__init__`). -/
def identifierDefaults : List (String × Value) :=
  [("name", .vnil), ("type", .vint (-1)), ("slot", .vint (-1)),
   ("id", .vint (-1)), ("_varinfo", .vnil)]

/-- An empty list wrapper node: the attribute dictionary a fresh
`StatementsList()` or any of its subclasses starts with. -/
def emptyListAttrs : List (String × Value) := [("contents", .vlist [])]

/-- The helper objects each class constructor allocates before the object
itself is complete, in creation order (`__init__` of each class: for
example `FunctionDefinition()` first builds an `IdentifiersList()` and a
`StatementsList()`). -/
def ctorSubs : ClassName → List (ClassName × List (String × Value))
  | .FunctionDefinition =>
    [(.IdentifiersList, emptyListAttrs), (.StatementsList, emptyListAttrs)]
  | .Block => []
  | .TableConstructor => [(.RecordsList, emptyListAttrs), (.RecordsList, emptyListAttrs)]
  | .ArrayRecord => []
  | .TableRecord => []
  | .Assignment => [(.ExpressionsList, emptyListAttrs), (.VariablesList, emptyListAttrs)]
  | .BinaryOperator => []
  | .UnaryOperator => []
  | .StatementsList => []
  | .IdentifiersList => []
  | .RecordsList => []
  | .VariablesList => []
  | .ExpressionsList => []
  | .Identifier => []
  | .MULTRES => []
  | .GetItem => []
  | .Vararg => []
  | .FunctionCall => [(.ExpressionsList, emptyListAttrs)]
  | .If => [(.StatementsList, emptyListAttrs), (.StatementsList, emptyListAttrs)]
  | .ElseIf => [(.StatementsList, emptyListAttrs)]
  | .UnconditionalWarp => []
  | .ConditionalWarp => []
  | .IteratorWarp => [(.VariablesList, emptyListAttrs), (.ExpressionsList, emptyListAttrs)]
  | .NumericLoopWarp => [(.Identifier, identifierDefaults), (.ExpressionsList, emptyListAttrs)]
  | .EndWarp => []
  | .Return => [(.ExpressionsList, emptyListAttrs)]
  | .Break => []
  | .While => [(.StatementsList, emptyListAttrs)]
  | .RepeatUntil => [(.StatementsList, emptyListAttrs)]
  | .NumericFor => [(.ExpressionsList, emptyListAttrs), (.StatementsList, emptyListAttrs)]
  | .IteratorFor =>
    [(.ExpressionsList, emptyListAttrs), (.VariablesList, emptyListAttrs),
     (.StatementsList, emptyListAttrs)]
  | .Constant => []
  | .Primitive => []
  | .NoOp => []

/-- The attribute dictionary of a freshly constructed object of each class,
when its helper objects were allocated starting at id `base` (`__init__`
of each class in `ljd/ast/nodes.py`; `NumericFor.__init__` sets the
attribute `expressions` although the slot list names `expression`, and
`IteratorFor.__init__` sets `identifiers` which is not a slot). -/
def ctorMain : ClassName → Nat → List (String × Value)
  | .FunctionDefinition, base =>
    [("arguments", .vref base), ("statements", .vref (base + 1)),
     ("_upvalues", .vnil), ("_debuginfo", .vnil),
     ("_instructions_count", .vint 0), ("error", .vnil)]
  | .Block, _ =>
    [("index", .vint (-1)), ("warp", .vnil), ("contents", .vlist []),
     ("first_address", .vint 0), ("last_address", .vint 0),
     ("warpins_count", .vint 0), ("loop", .vbool false)]
  | .TableConstructor, base => [("array", .vref base), ("records", .vref (base + 1))]
  | .ArrayRecord, _ => [("value", .vnil)]
  | .TableRecord, _ => [("key", .vnil), ("value", .vnil)]
  | .Assignment, base =>
    [("expressions", .vref base), ("destinations", .vref (base + 1)),
     ("type", .vint (-1))]
  | .BinaryOperator, _ => [("type", .vint (-1)), ("left", .vnil), ("right", .vnil)]
  | .UnaryOperator, _ => [("type", .vint (-1)), ("operand", .vnil)]
  | .StatementsList, _ => emptyListAttrs
  | .IdentifiersList, _ => emptyListAttrs
  | .RecordsList, _ => emptyListAttrs
  | .VariablesList, _ => emptyListAttrs
  | .ExpressionsList, _ => emptyListAttrs
  | .Identifier, _ => identifierDefaults
  | .MULTRES, _ => []
  | .GetItem, _ => [("table", .vnil), ("key", .vnil)]
  | .Vararg, _ => []
  | .FunctionCall, base =>
    [("function", .vnil), ("arguments", .vref base), ("is_method", .vbool false)]
  | .If, base =>
    [("expression", .vnil), ("then_block", .vref base), ("elseifs", .vlist []),
     ("else_block", .vref (base + 1))]
  | .ElseIf, base => [("expression", .vnil), ("then_block", .vref base)]
  | .UnconditionalWarp, _ =>
    [("type", .vint (-1)), ("target", .vnil), ("is_uclo", .vbool false)]
  | .ConditionalWarp, _ =>
    [("condition", .vnil), ("true_target", .vnil), ("false_target", .vnil)]
  | .IteratorWarp, base =>
    [("variables", .vref base), ("controls", .vref (base + 1)),
     ("body", .vnil), ("way_out", .vnil)]
  | .NumericLoopWarp, base =>
    [("index", .vref base), ("controls", .vref (base + 1)),
     ("body", .vnil), ("way_out", .vnil)]
  | .EndWarp, _ => []
  | .Return, base => [("returns", .vref base)]
  | .Break, _ => []
  | .While, base => [("expression", .vnil), ("statements", .vref base)]
  | .RepeatUntil, base => [("expression", .vnil), ("statements", .vref base)]
  | .NumericFor, base => [("expressions", .vref base), ("statements", .vref (base + 1))]
  | .IteratorFor, base =>
    [("expressions", .vref base), ("identifiers", .vref (base + 1)),
     ("statements", .vref (base + 2))]
  | .Constant, _ => [("type", .vint (-1)), ("value", .vnil)]
  | .Primitive, _ => [("type", .vint (-1))]
  | .NoOp, _ => []

/-- `subcls()`: run the constructor, returning the id of the new object. -/
def construct (cls : ClassName) (st : LState) : Nat × LState :=
  alloc cls (ctorMain cls st.next) (allocList (ctorSubs cls) st)

/-- Update the object stored under `nid` with one `setattr`. -/
def heapUpdate (nid : Nat) (name : String) (v : Value) : Heap → Heap
  | [] => []
  | (k, nd) :: rest =>
    if k = nid then (k, setAttr nd name v) :: heapUpdate nid name v rest
    else (k, nd) :: heapUpdate nid name v rest

/-- `setattr(res, key, value)` on the object `nid` of the new heap. -/
def setAttrSt (st : LState) (nid : Nat) (name : String) (v : Value) : LState :=
  ⟨heapUpdate nid name v st.heap, st.mapping, st.next⟩

/-- The `[load_dict(item, mapping) for item in data]` comprehension. -/
def loadList (g : DictVal → LState → Option (Value × LState)) :
    List DictVal → LState → Option (List Value × LState)
  | [], st => some ([], st)
  | d :: ds, st =>
    match g d st with
    | none => none
    | some (v, st') =>
      match loadList g ds st' with
      | none => none
      | some (vs, st'') => some (v :: vs, st'')

/-- The `for key in data: setattr(res, key, load_dict(data[key], mapping))`
loop filling the object `nid`. -/
def loadSlots (g : DictVal → LState → Option (Value × LState)) :
    List (String × DictVal) → Nat → LState → Option LState
  | [], _, st => some st
  | (name, d) :: rest, nid, st =>
    match g d st with
    | none => none
    | some (v, st') => loadSlots g rest nid (setAttrSt st' nid name v)

/-- `load_dict(data, mapping)`.  Lists map elementwise; non-dictionary
values pass through; a `Ref` resolves through the mapping (`KeyError`,
hence `none`, when absent); a node dictionary constructs a fresh object,
registers it under the original id, and `setattr`s each serialized slot. -/
def loadDict : Nat → DictVal → LState → Option (Value × LState)
  | 0, _, _ => none
  | _ + 1, .dnil, st => some (.vnil, st)
  | _ + 1, .dint n, st => some (.vint n, st)
  | _ + 1, .dbool b, st => some (.vbool b, st)
  | _ + 1, .dstr s, st => some (.vstr s, st)
  | f + 1, .dlist ds, st =>
    match loadList (loadDict f) ds st with
    | none => none
    | some (vs, st') => some (.vlist vs, st')
  | _ + 1, .dref i, st =>
    match lk st.mapping i with
    | none => none
    | some j => some (.vref j, st)
  | f + 1, .dnode cls i slots, st =>
    match construct cls st with
    | (rid, st₁) =>
      match loadSlots (loadDict f) slots rid ⟨st₁.heap, (i, rid) :: st₁.mapping, st₁.next⟩ with
      | none => none
      | some st₂ => some (.vref rid, st₂)

/-- The state a top-level `AstNode.load_dict(data)` call starts from. -/
def initLState : LState := ⟨[], [], 0⟩

/-! ## The visitor traversal (`_accept` of every class, and the traversal
driver of `ljd.ast.traverse`)

The file `ljd/ast/traverse.py` is not part of the given sources; only its
interface is used by `nodes.py`.  Modelled from the spec: the `Visitor`
offers an enter and a leave hook per node kind, `_visit(node)` dispatches
to `node._accept(visitor)` and skips `None`, `_visit_list` visits the
elements of a raw list in order, and the default implementations recurse in
the order each `_accept` hard-codes.  The hooks are recorded as an event
trace; the state also carries the class-level `TableConstructor.anti_loop`
set and `TableConstructor.cur_visitor` slot of `nodes.py` together with
the identity of the visitor object doing the traversal. -/

/-- One visitor hook invocation on the node with the given id. -/
inductive Event where
  | enter (i : Nat)
  | leave (i : Nat)
deriving DecidableEq

/-- Traversal state: the hook trace, the process-wide
`TableConstructor.anti_loop` set and `TableConstructor.cur_visitor`, and
the identity of the visitor object walking the tree. -/
structure VState where
  trace : List Event
  antiLoop : List Nat
  curVisitor : Option Nat
  visitorId : Nat

/-- Record the enter hook (`visitor._visit_node(visitor.visit_X, self)`). -/
def pushEnter (st : VState) (i : Nat) : VState :=
  ⟨st.trace ++ [.enter i], st.antiLoop, st.curVisitor, st.visitorId⟩

/-- Record the leave hook (`visitor._leave_node(visitor.leave_X, self)`). -/
def pushLeave (st : VState) (i : Nat) : VState :=
  ⟨st.trace ++ [.leave i], st.antiLoop, st.curVisitor, st.visitorId⟩

/-- Lines 172 to 177 of `ljd/ast/nodes.py`: on entering a table
constructor, adopt the current visitor, clearing the `anti_loop` set when a
different visitor object had been traversing. -/
def normVisitor (st : VState) : VState :=
  match st.curVisitor with
  | none => ⟨st.trace, st.antiLoop, some st.visitorId, st.visitorId⟩
  | some w =>
    if w = st.visitorId then st
    else ⟨st.trace, [], some st.visitorId, st.visitorId⟩

/-- The attribute values each `_accept` visits, in source order.  Warp
targets (`target`, `true_target`, `false_target`, `body`, `way_out`) are
deliberately absent, matching the `DO NOT VISIT` comments in the source. -/
def childrenOf (n : Node) : List Value :=
  match n.cls with
  | .FunctionDefinition => [getAttr n "arguments", getAttr n "statements"]
  | .Block => [getAttr n "contents", getAttr n "warp"]
  | .TableConstructor => [getAttr n "array", getAttr n "records"]
  | .ArrayRecord => [getAttr n "value"]
  | .TableRecord => [getAttr n "key", getAttr n "value"]
  | .Assignment => [getAttr n "expressions", getAttr n "destinations"]
  | .BinaryOperator => [getAttr n "left", getAttr n "right"]
  | .UnaryOperator => [getAttr n "operand"]
  | .StatementsList => [getAttr n "contents"]
  | .IdentifiersList => [getAttr n "contents"]
  | .RecordsList => [getAttr n "contents"]
  | .VariablesList => [getAttr n "contents"]
  | .ExpressionsList => [getAttr n "contents"]
  | .Identifier => []
  | .MULTRES => []
  | .GetItem => [getAttr n "key", getAttr n "table"]
  | .Vararg => []
  | .FunctionCall => [getAttr n "arguments", getAttr n "function"]
  | .If =>
    [getAttr n "expression", getAttr n "then_block", getAttr n "elseifs",
     getAttr n "else_block"]
  | .ElseIf => [getAttr n "expression", getAttr n "then_block"]
  | .UnconditionalWarp => []
  | .ConditionalWarp => [getAttr n "condition"]
  | .IteratorWarp => [getAttr n "variables", getAttr n "controls"]
  | .NumericLoopWarp => [getAttr n "index", getAttr n "controls"]
  | .EndWarp => []
  | .Return => [getAttr n "returns"]
  | .Break => []
  | .While => [getAttr n "expression", getAttr n "statements"]
  | .RepeatUntil => [getAttr n "statements", getAttr n "expression"]
  | .NumericFor => [getAttr n "variable", getAttr n "expressions", getAttr n "statements"]
  | .IteratorFor =>
    [getAttr n "expressions", getAttr n "identifiers", getAttr n "statements"]
  | .Constant => []
  | .Primitive => []
  | .NoOp => []

/-- Fold of a visit step over a list of values, failing when a step fails. -/
def foldStateM {σ α : Type} (g : σ → α → Option σ) : σ → List α → Option σ
  | st, [] => some st
  | st, v :: vs =>
    match g st v with
    | none => none
    | some st' => foldStateM g st' vs

/-- The body shared by every `_accept`: record the enter hook, visit the
given child values in order, record the leave hook. -/
def acceptSeq (g : VState → Value → Option VState) (st : VState) (i : Nat)
    (children : List Value) : Option VState :=
  match foldStateM g (pushEnter st i) children with
  | none => none
  | some st' => some (pushLeave st' i)

/-- The traversal: `_visit` on a value.  `None` and plain values are
skipped, lists are visited elementwise, `NoOp._accept` does nothing, a
`TableConstructor` runs the recursion guard of lines 171 to 189, and every
other class records its enter hook, visits `childrenOf` in order, and
records its leave hook. -/
def visit (H : Heap) : Nat → VState → Value → Option VState
  | 0, _, _ => none
  | _ + 1, st, .vnil => some st
  | _ + 1, st, .vint _ => some st
  | _ + 1, st, .vbool _ => some st
  | _ + 1, st, .vstr _ => some st
  | f + 1, st, .vlist vs => foldStateM (visit H f) st vs
  | f + 1, st, .vref i =>
    match lk H i with
    | none => none
    | some n =>
      if n.cls = .NoOp then some st
      else if n.cls = .TableConstructor then
        match normVisitor st with
        | st' =>
          if i ∈ st'.antiLoop then some st'
          else
            acceptSeq (visit H f)
              ⟨st'.trace, i :: st'.antiLoop, st'.curVisitor, st'.visitorId⟩
              i (childrenOf n)
      else acceptSeq (visit H f) st i (childrenOf n)

/-- How many times the enter hook fired on node `t`. -/
def countEnter (t : Nat) : List Event → Nat
  | [] => 0
  | .enter u :: rest => (if u = t then 1 else 0) + countEnter t rest
  | .leave _ :: rest => countEnter t rest

/-- Node `t` of heap `H` is a table constructor. -/
def IsTC (H : Heap) (t : Nat) : Prop :=
  ∃ n, lk H t = some n ∧ n.cls = ClassName.TableConstructor

/-! ## Operator tables (`BinaryOperator` and `UnaryOperator`) -/

/-- `BinaryOperator.T_LOGICAL_OR`. -/
def T_LOGICAL_OR : Int := 0
/-- `BinaryOperator.T_LOGICAL_AND`. -/
def T_LOGICAL_AND : Int := 10
/-- `BinaryOperator.T_LESS_THEN`. -/
def T_LESS_THEN : Int := 20
/-- `BinaryOperator.T_GREATER_THEN`. -/
def T_GREATER_THEN : Int := 21
/-- `BinaryOperator.T_LESS_OR_EQUAL`. -/
def T_LESS_OR_EQUAL : Int := 22
/-- `BinaryOperator.T_GREATER_OR_EQUAL`. -/
def T_GREATER_OR_EQUAL : Int := 23
/-- `BinaryOperator.T_NOT_EQUAL`. -/
def T_NOT_EQUAL : Int := 24
/-- `BinaryOperator.T_EQUAL`. -/
def T_EQUAL : Int := 25
/-- `BinaryOperator.T_CONCAT`. -/
def T_CONCAT : Int := 30
/-- `BinaryOperator.T_ADD`. -/
def T_ADD : Int := 40
/-- `BinaryOperator.T_SUBTRACT`. -/
def T_SUBTRACT : Int := 41
/-- `BinaryOperator.T_MULTIPLY`. -/
def T_MULTIPLY : Int := 50
/-- `BinaryOperator.T_DIVISION`. -/
def T_DIVISION : Int := 51
/-- `BinaryOperator.T_MOD`. -/
def T_MOD : Int := 52
/-- `BinaryOperator.T_POW`. -/
def T_POW : Int := 70

/-- `BinaryOperator.PR_OR`. -/
def PR_OR : Nat := 1
/-- `BinaryOperator.PR_AND`. -/
def PR_AND : Nat := 2
/-- `BinaryOperator.PR_COMPARISON`. -/
def PR_COMPARISON : Nat := 3
/-- `BinaryOperator.PR_CONCATENATE`. -/
def PR_CONCATENATE : Nat := 4
/-- `BinaryOperator.PR_MATH_ADDSUB`. -/
def PR_MATH_ADDSUB : Nat := 5
/-- `BinaryOperator.PR_MATH`. -/
def PR_MATH : Nat := 6
/-- `BinaryOperator.PR_UNARY`. -/
def PR_UNARY : Nat := 7
/-- `BinaryOperator.PR_EXPONENT`. -/
def PR_EXPONENT : Nat := 8

/-- The fifteen defined binary operator codes, in source order. -/
def binaryOpCodes : List Int :=
  [T_LOGICAL_OR, T_LOGICAL_AND, T_LESS_THEN, T_GREATER_THEN, T_LESS_OR_EQUAL,
   T_GREATER_OR_EQUAL, T_NOT_EQUAL, T_EQUAL, T_CONCAT, T_ADD, T_SUBTRACT,
   T_MULTIPLY, T_DIVISION, T_MOD, T_POW]

/-- `BinaryOperator.precedence` (lines 317 to 341): the chain of range
tests over the operator code; the trailing `raise ValueError` is `none`. -/
def precedence (t : Int) : Option Nat :=
  if t ≤ T_LOGICAL_OR then some PR_OR
  else if t ≤ T_LOGICAL_AND then some PR_AND
  else if t ≤ T_EQUAL then some PR_COMPARISON
  else if t ≤ T_CONCAT then some PR_CONCATENATE
  else if t ≤ T_SUBTRACT then some PR_MATH_ADDSUB
  else if t ≤ T_MOD then some PR_MATH
  else if t ≤ T_POW then some PR_EXPONENT
  else none

/-- `BinaryOperator.is_right_associative` (lines 343 to 355). -/
def is_right_associative (t : Int) : Bool :=
  if t = T_CONCAT then false
  else if t = T_POW then true
  else false

/-- `BinaryOperator.is_commutative` (lines 357 to 386): the chain of range
tests; the trailing `assert False` is `none`. -/
def is_commutative (t : Int) : Option Bool :=
  if t ≤ T_LOGICAL_AND then some true
  else if t ≤ T_GREATER_OR_EQUAL then some false
  else if t ≤ T_EQUAL then some true
  else if t ≤ T_CONCAT then some false
  else if t ≤ T_ADD then some true
  else if t ≤ T_SUBTRACT then some false
  else if t ≤ T_MULTIPLY then some true
  else if t ≤ T_MOD then some false
  else if t ≤ T_POW then some false
  else none

/-- `UnaryOperator.precedence` (lines 419 to 420): always `PR_UNARY`. -/
def unaryPrecedence : Nat := PR_UNARY

/-! ## The pipeline driver (`ljd/tools.py`)

Only `tools.py` itself is among the given sources; the pipeline stages it
calls (`ljd.ast.builder`, `ljd.ast.validator`, `ljd.ast.mutator`,
`ljd.ast.locals`, `ljd.ast.slotworks`, `ljd.ast.unwarper`) are external
modules.  Modelled from the spec: each stage is an in-place tree-to-tree
rewrite of the single mutable AST which returns nothing; the embedding
makes each stage record its invocation, with its flag arguments, against
the identity of the AST it was handed. -/

/-- The identity of the AST object `ljd.ast.builder.build` returns for a
given header and prototype. -/
structure AstObj where
  header : Nat
  prototype : Nat

/-- One recorded pipeline stage invocation, with its flag arguments. -/
inductive StageCall where
  | build
  | validate (warped : Bool)
  | pre_pass
  | mark_locals (alt_mode : Bool)
  | eliminate_temporary (identify_slots : Bool)
  | unwarp (b : Bool)
  | mark_local_definitions
  | primary_pass
deriving DecidableEq

/-- A pipeline log: which stage ran, on which AST object, in which order. -/
abbrev StageLog := List (AstObj × StageCall)

/-- Modelled from the spec: `ljd.ast.builder.build(header, prototype)`
produces the per-function warped AST; the result is the single mutable
AST of the whole run (its identity is all later stages see). -/
def builder_build (header prototype : Nat) (log : StageLog) : AstObj × StageLog :=
  (⟨header, prototype⟩, log ++ [(⟨header, prototype⟩, .build)])

/-- Modelled from the spec: `ljd.ast.validator.validate(ast, warped=...)`
checks structural invariants in place and returns nothing. -/
def validator_validate (ast : AstObj) (warped : Bool) (log : StageLog) : StageLog :=
  log ++ [(ast, .validate warped)]

/-- Modelled from the spec: `ljd.ast.mutator.pre_pass(ast)` rewrites
instruction-level idioms in place. -/
def mutator_pre_pass (ast : AstObj) (log : StageLog) : StageLog :=
  log ++ [(ast, .pre_pass)]

/-- Modelled from the spec: `ljd.ast.locals.mark_locals(ast, alt_mode=...)`
retags slot identifiers in place; `alt_mode` defaults to `False`. -/
def locals_mark_locals (ast : AstObj) (alt_mode : Bool) (log : StageLog) : StageLog :=
  log ++ [(ast, .mark_locals alt_mode)]

/-- Modelled from the spec:
`ljd.ast.slotworks.eliminate_temporary(ast, identify_slots=...)` fuses
single-use temporary slots in place. -/
def slotworks_eliminate_temporary (ast : AstObj) (identify_slots : Bool)
    (log : StageLog) : StageLog :=
  log ++ [(ast, .eliminate_temporary identify_slots)]

/-- Modelled from the spec: `ljd.ast.unwarper.unwarp(ast, ...)` reduces the
warped block graph to structured statements in place. -/
def unwarper_unwarp (ast : AstObj) (b : Bool) (log : StageLog) : StageLog :=
  log ++ [(ast, .unwarp b)]

/-- Modelled from the spec: `ljd.ast.locals.mark_local_definitions(ast)`
marks defining assignments in place. -/
def locals_mark_local_definitions (ast : AstObj) (log : StageLog) : StageLog :=
  log ++ [(ast, .mark_local_definitions)]

/-- Modelled from the spec: `ljd.ast.mutator.primary_pass(ast)` runs the
post-unwarping cleanups in place. -/
def mutator_primary_pass (ast : AstObj) (log : StageLog) : StageLog :=
  log ++ [(ast, .primary_pass)]

/-- `decompile(header, prototype)` (`ljd/tools.py`, lines 73 to 88),
statement by statement in source order, returning the AST built first. -/
def decompile (header prototype : Nat) : AstObj × StageLog :=
  match builder_build header prototype [] with
  | (ast, log) =>
    let log := validator_validate ast true log
    let log := mutator_pre_pass ast log
    let log := validator_validate ast true log
    let log := locals_mark_locals ast false log
    let log := slotworks_eliminate_temporary ast true log
    let log := unwarper_unwarp ast false log
    let log := locals_mark_local_definitions ast log
    let log := mutator_primary_pass ast log
    let log := validator_validate ast false log
    let log := locals_mark_locals ast true log
    let log := locals_mark_local_definitions ast log
    (ast, log)

/-- The outcome of decompiling one file in a worker: either the written
output or the exception `f.result()` re-raises. -/
abbrev FileOutcome := Except String Unit

/-- The result-collection loop of `process_folder` (`ljd/tools.py`, lines
141 to 153): walk the submitted futures in order; a successful one appends
its relative path to `success`, a raised exception is caught and recorded
in `failed`. -/
def collectResults : List (String × FileOutcome) → List String →
    List (String × String) → List String × List (String × String)
  | [], success, failed => (success, failed)
  | (path, .ok _) :: rest, success, failed =>
    collectResults rest (success ++ [path]) failed
  | (path, .error e) :: rest, success, failed =>
    collectResults rest success (failed ++ [(path, e)])

/-- `process_folder` over the submitted files: the first component is the
list it returns, the second the per-file failures it logs afterwards. -/
def process_folder (files : List (String × FileOutcome)) :
    List String × List (String × String) :=
  collectResults files [] []

/-- The `__main__` block (`ljd/tools.py`, lines 168 to 170): it calls
`process_folder`, discards its result, and falls off the end of the
script, so the interpreter exits with status 0. -/
def mainExitCode (files : List (String × FileOutcome)) : Nat :=
  let _ := process_folder files
  0

/-! ## Relations used by the round-trip theorems -/

/-- Values match across the round trip, relative to the id mapping `m`:
plain values are equal, and a node reference maps through `m`.  Because a
mapping lookup is a function, two attributes holding the same original
reference always match the same new reference. -/
inductive ValMatch (m : List (Nat × Nat)) : Value → Value → Prop where
  | vnil : ValMatch m .vnil .vnil
  | vint (n : Int) : ValMatch m (.vint n) (.vint n)
  | vbool (b : Bool) : ValMatch m (.vbool b) (.vbool b)
  | vstr (s : String) : ValMatch m (.vstr s) (.vstr s)
  | vref (i j : Nat) : lk m i = some j → ValMatch m (.vref i) (.vref j)
  | listNil : ValMatch m (.vlist []) (.vlist [])
  | listCons (v w : Value) (vs ws : List Value) : ValMatch m v w →
      ValMatch m (.vlist vs) (.vlist ws) → ValMatch m (.vlist (v :: vs)) (.vlist (w :: ws))

/-- Every entry of the mapping `m` survives into `m'`. -/
def MapExt (m m' : List (Nat × Nat)) : Prop :=
  ∀ i j, lk m i = some j → lk m' i = some j

/-- Every object of heap `h` is untouched in `h'`. -/
def HeapExt (h h' : Heap) : Prop :=
  ∀ j nd, lk h j = some nd → lk h' j = some nd

/-- The loaded node `n'` reproduces the original node `n` through mapping
`m`: same class, every `_slots` attribute matches, and every other
attribute still holds the constructor default (for some allocation base of
the constructor's helper objects). -/
def NodeMatch (m : List (Nat × Nat)) (n n' : Node) : Prop :=
  n'.cls = n.cls ∧
  (∀ name ∈ slotsOf n.cls, ValMatch m (getAttr n name) (getAttr n' name)) ∧
  ∃ base, ∀ name, name ∉ slotsOf n.cls →
    getAttr n' name = getAttr ⟨n.cls, ctorMain n.cls base⟩ name

/-- Original node `i` has been fully rebuilt in the load state `st`, as a
copy allocated at or above `lo`: the mapping sends `i` to a new object
whose class, slot attributes and remaining constructor defaults all match
the original. -/
def RebuiltFrom (H : Heap) (st : LState) (lo : Nat) (i : Nat) : Prop :=
  ∃ j n n', lk st.mapping i = some j ∧ lo ≤ j ∧ lk H i = some n ∧
    lk st.heap j = some n' ∧ NodeMatch st.mapping n n'

/-- The invariant tying a `to_dict` visited list to a `load_dict` state:
the mapping keys are exactly the visited ids in order, the visited ids are
distinct, every mapped and every allocated object lies below the
allocator, and distinct originals map to distinct copies. -/
def Inv (vis : List Nat) (st : LState) : Prop :=
  st.mapping.map Prod.fst = vis ∧ vis.Nodup ∧
  (∀ p ∈ st.mapping, p.2 < st.next) ∧ (st.mapping.map Prod.snd).Nodup ∧
  (∀ p ∈ st.heap, p.1 < st.next)

/-- What one aligned `to_dict` / `load_dict` step establishes: the load
succeeds, the invariant moves to the new visited list, the mapping and
heap of the load state only grow, the loaded value matches the original
through the final mapping, and every node serialized during the step has
been rebuilt at a fresh address. -/
def SimPost (H : Heap) (f : Nat) (vis : List Nat) (v : Value) (d : DictVal)
    (vis' : List Nat) (st : LState) : Prop :=
  ∃ v' st',
    loadDict f d st = some (v', st') ∧
    Inv vis' st' ∧
    MapExt st.mapping st'.mapping ∧
    HeapExt st.heap st'.heap ∧
    st.next ≤ st'.next ∧
    ValMatch st'.mapping v v' ∧
    ∃ new, vis' = new ++ vis ∧ ∀ i ∈ new, RebuiltFrom H st' st.next i

/-- The relative paths of the files whose worker succeeded, in submission
order. -/
def successesOf : List (String × FileOutcome) → List String
  | [] => []
  | (path, .ok _) :: rest => path :: successesOf rest
  | (_, .error _) :: rest => successesOf rest

/-- The relative paths and exception texts of the files whose worker
raised, in submission order. -/
def failuresOf : List (String × FileOutcome) → List (String × String)
  | [] => []
  | (_, .ok _) :: rest => failuresOf rest
  | (path, .error e) :: rest => (path, e) :: failuresOf rest

/-- What one successful traversal step preserves and produces, given that
the current visitor has already been adopted: the visitor identity and the
adopted `cur_visitor` persist, the `anti_loop` set only grows, the trace
only gets appended to, and the enter count of a table constructor is
frozen while it is in the `anti_loop` set and can rise at most once,
entering the set when it does. -/
def GuardStep (H : Heap) (st st' : VState) : Prop :=
  st'.visitorId = st.visitorId ∧
  st'.curVisitor = some st.visitorId ∧
  st.antiLoop ⊆ st'.antiLoop ∧
  (∃ tail, st'.trace = st.trace ++ tail) ∧
  ∀ t, IsTC H t →
    (t ∈ st.antiLoop → countEnter t st'.trace = countEnter t st.trace) ∧
    countEnter t st'.trace ≤ countEnter t st.trace + 1 ∧
    (countEnter t st.trace < countEnter t st'.trace → t ∈ st'.antiLoop)

/-- A concrete heap for the traversal-order witnesses: a function call
whose arguments list holds an identifier, applied to a function reached
through a table lookup, plus one node of each warp class.  The warp
targets deliberately point at the absent id 99: the traversal succeeds
anyway because no warp target is ever followed. -/
def exHeapVisit : Heap :=
  [(0, ⟨.FunctionCall,
    [("function", .vref 1), ("arguments", .vref 2), ("is_method", .vbool false)]⟩),
   (1, ⟨.GetItem, [("table", .vref 3), ("key", .vstr "f")]⟩),
   (2, ⟨.ExpressionsList, [("contents", .vlist [.vref 3])]⟩),
   (3, ⟨.Identifier,
    [("name", .vstr "x"), ("type", .vint 1), ("slot", .vint 0), ("id", .vint (-1))]⟩),
   (10, ⟨.UnconditionalWarp,
    [("type", .vint 0), ("target", .vref 99), ("is_uclo", .vbool false)]⟩),
   (11, ⟨.ConditionalWarp,
    [("condition", .vref 3), ("true_target", .vref 99), ("false_target", .vref 99)]⟩),
   (12, ⟨.IteratorWarp,
    [("variables", .vref 2), ("controls", .vnil), ("body", .vref 99),
     ("way_out", .vref 99)]⟩),
   (13, ⟨.NumericLoopWarp,
    [("index", .vref 3), ("controls", .vnil), ("body", .vref 99),
     ("way_out", .vref 99)]⟩)]

/-- A concrete cyclic table: table 0 holds a record whose value is table 2,
and table 2 holds a record whose value is table 0 again. -/
def exHeapTC : Heap :=
  [(0, ⟨.TableConstructor, [("array", .vlist []), ("records", .vlist [.vref 1])]⟩),
   (1, ⟨.TableRecord, [("key", .vstr "k"), ("value", .vref 2)]⟩),
   (2, ⟨.TableConstructor, [("array", .vlist []), ("records", .vlist [.vref 3])]⟩),
   (3, ⟨.TableRecord, [("key", .vstr "back"), ("value", .vref 0)]⟩)]

/-- The visitor state a fresh traversal starts from. -/
def startVState (antiLoop : List Nat) (vid : Nat) : VState :=
  ⟨[], antiLoop, some vid, vid⟩

/-- A concrete heap for the round-trip witnesses: block 0 carries an
unconditional warp whose target points back at block 0, so the serialized
form needs the `Ref` mechanism, and the block also carries a non-default
`warpins_count`, which is not a slot and is dropped by serialization. -/
def exHeapRT : Heap :=
  [(0, ⟨.Block,
    [("index", .vint 3), ("warp", .vref 1), ("contents", .vlist []),
     ("first_address", .vint 0), ("last_address", .vint 5),
     ("warpins_count", .vint 7), ("loop", .vbool false)]⟩),
   (1, ⟨.UnconditionalWarp,
    [("type", .vint 0), ("target", .vref 0), ("is_uclo", .vbool false)]⟩)]

/-! ## Theorems -/

/-- C2: for every binary operator with one of the fifteen defined codes,
`precedence()` returns 1 for logical-or, 2 for logical-and, 3 for each of
the six comparisons, 4 for concat, 5 for add and subtract, 6 for multiply,
divide and mod, and 8 for pow; and `UnaryOperator.precedence()` always
returns 7. -/
theorem C2_operator_precedence :
    precedence T_LOGICAL_OR = some 1 ∧
    precedence T_LOGICAL_AND = some 2 ∧
    precedence T_LESS_THEN = some 3 ∧
    precedence T_GREATER_THEN = some 3 ∧
    precedence T_LESS_OR_EQUAL = some 3 ∧
    precedence T_GREATER_OR_EQUAL = some 3 ∧
    precedence T_NOT_EQUAL = some 3 ∧
    precedence T_EQUAL = some 3 ∧
    precedence T_CONCAT = some 4 ∧
    precedence T_ADD = some 5 ∧
    precedence T_SUBTRACT = some 5 ∧
    precedence T_MULTIPLY = some 6 ∧
    precedence T_DIVISION = some 6 ∧
    precedence T_MOD = some 6 ∧
    precedence T_POW = some 8 ∧
    unaryPrecedence = 7 := by
  decide

/-- C3: `is_commutative()` returns true exactly for logical-and,
logical-or, equality, inequality, addition and multiplication, and false
for every other defined operator code. -/
theorem C3_operator_commutativity :
    is_commutative T_LOGICAL_OR = some true ∧
    is_commutative T_LOGICAL_AND = some true ∧
    is_commutative T_NOT_EQUAL = some true ∧
    is_commutative T_EQUAL = some true ∧
    is_commutative T_ADD = some true ∧
    is_commutative T_MULTIPLY = some true ∧
    is_commutative T_LESS_THEN = some false ∧
    is_commutative T_GREATER_THEN = some false ∧
    is_commutative T_LESS_OR_EQUAL = some false ∧
    is_commutative T_GREATER_OR_EQUAL = some false ∧
    is_commutative T_CONCAT = some false ∧
    is_commutative T_SUBTRACT = some false ∧
    is_commutative T_DIVISION = some false ∧
    is_commutative T_MOD = some false ∧
    is_commutative T_POW = some false := by
  decide

/-- C4: `is_right_associative()` returns true exactly for pow; in
particular concat is not right-associative, so it is grouped
left-associatively. -/
theorem C4_right_associativity :
    (∀ t ∈ binaryOpCodes, is_right_associative t = true ↔ t = T_POW) ∧
    is_right_associative T_CONCAT = false := by
  decide

/-- C4 witness: the associativity theorem applied to the concat code,
whose membership in the operator code list is discharged concretely. -/
theorem C4_right_associativity_witness :
    T_CONCAT ∈ binaryOpCodes ∧ (is_right_associative T_CONCAT = true ↔ T_CONCAT = T_POW) :=
  ⟨by decide, C4_right_associativity.1 T_CONCAT (by decide)⟩

/-- C7: `decompile(header, prototype)` builds one AST and applies exactly
the stages `build`, `validate(warped=True)`, `pre_pass`,
`validate(warped=True)`, `mark_locals`, `eliminate_temporary(
identify_slots=True)`, `unwarp`, `mark_local_definitions`, `primary_pass`,
`validate(warped=False)`, `mark_locals(alt_mode=True)`,
`mark_local_definitions`, in that order, each to that single AST, and
returns that AST. -/
theorem C7_decompile_stage_order (header prototype : Nat) :
    decompile header prototype =
      (⟨header, prototype⟩,
       [(⟨header, prototype⟩, .build),
        (⟨header, prototype⟩, .validate true),
        (⟨header, prototype⟩, .pre_pass),
        (⟨header, prototype⟩, .validate true),
        (⟨header, prototype⟩, .mark_locals false),
        (⟨header, prototype⟩, .eliminate_temporary true),
        (⟨header, prototype⟩, .unwarp false),
        (⟨header, prototype⟩, .mark_local_definitions),
        (⟨header, prototype⟩, .primary_pass),
        (⟨header, prototype⟩, .validate false),
        (⟨header, prototype⟩, .mark_locals true),
        (⟨header, prototype⟩, .mark_local_definitions)]) ∧
    (decompile header prototype).1 = (builder_build header prototype []).1 := by
  exact ⟨rfl, rfl⟩

/-- The collection loop of `process_folder` splits the submitted files
into the successes it returns and the failures it logs, keeping the
submission order and never stopping at a failure. -/
theorem collectResults_spec (files : List (String × FileOutcome))
    (success : List String) (failed : List (String × String)) :
    collectResults files success failed =
      (success ++ successesOf files, failed ++ failuresOf files) := by
  induction files generalizing success failed with
  | nil => simp [collectResults, successesOf, failuresOf]
  | cons hd tl ih =>
    obtain ⟨path, outcome⟩ := hd
    cases outcome with
    | ok u => simp [collectResults, successesOf, failuresOf, ih]
    | error e => simp [collectResults, successesOf, failuresOf, ih]

/-- C8 counterexample: with a single failing file the batch records the
failure, yet the interpreter still exits with status 0, refuting the
non-zero-exit part of the claim at this input. -/
theorem C8_exit_status_counterexample :
    (process_folder [("a.luac", Except.error "boom")]).2 ≠ [] ∧
    mainExitCode [("a.luac", Except.error "boom")] = 0 := by
  constructor
  · simp [process_folder, collectResults]
  · rfl

/-- C8 (amended): an exception in one file is caught and recorded without
stopping the batch, `process_folder` returns exactly the relative paths
that succeeded in submission order and logs exactly the failures, and the
command-line run exits with status 0 whether or not any file failed. -/
theorem C8_process_folder_batch (files : List (String × FileOutcome)) :
    process_folder files = (successesOf files, failuresOf files) ∧
    mainExitCode files = 0 := by
  refine ⟨?_, rfl⟩
  simpa using collectResults_spec files [] []

/-- Accepting a node with no visited children fires exactly the enter and
leave hooks. -/
theorem acceptSeq_nil (g : VState → Value → Option VState) (st : VState) (i : Nat) :
    acceptSeq g st i [] = some (pushLeave (pushEnter st i) i) := rfl

/-- Accepting a node with one visited child runs enter, the child, leave. -/
theorem acceptSeq_one (g : VState → Value → Option VState) (st : VState)
    (i : Nat) (a : Value) :
    acceptSeq g st i [a] =
      (g (pushEnter st i) a).bind (fun s1 => some (pushLeave s1 i)) := by
  cases h : g (pushEnter st i) a <;> simp [acceptSeq, foldStateM, h]

/-- Accepting a node with two visited children runs enter, the first
child, the second child, leave — in that order. -/
theorem acceptSeq_pair (g : VState → Value → Option VState) (st : VState)
    (i : Nat) (a b : Value) :
    acceptSeq g st i [a, b] =
      (g (pushEnter st i) a).bind (fun s1 =>
        (g s1 b).bind (fun s2 => some (pushLeave s2 i))) := by
  cases h : g (pushEnter st i) a with
  | none => simp [acceptSeq, foldStateM, h]
  | some s1 => cases h2 : g s1 b <;> simp [acceptSeq, foldStateM, h, h2]

/-- Visiting a node of any class other than `NoOp` and `TableConstructor`
runs the shared accept body on exactly the `childrenOf` that class. -/
theorem visit_vref (H : Heap) (f : Nat) (st : VState) (i : Nat) (n : Node)
    (h : lk H i = some n) (h1 : n.cls ≠ ClassName.NoOp)
    (h2 : n.cls ≠ ClassName.TableConstructor) :
    visit H (f + 1) st (.vref i) = acceptSeq (visit H f) st i (childrenOf n) := by
  simp [visit, h, h1, h2]

/-- C5: the default traversal visits children in evaluation order — a
`FunctionCall` visits its arguments list before its function expression,
and a `GetItem` visits its key before its table. -/
theorem C5_visit_evaluation_order (H : Heap) (f : Nat) (st : VState)
    (i₁ i₂ : Nat) (n₁ n₂ : Node)
    (h₁ : lk H i₁ = some n₁) (hc₁ : n₁.cls = ClassName.FunctionCall)
    (h₂ : lk H i₂ = some n₂) (hc₂ : n₂.cls = ClassName.GetItem) :
    visit H (f + 1) st (.vref i₁) =
      (visit H f (pushEnter st i₁) (getAttr n₁ "arguments")).bind (fun s1 =>
        (visit H f s1 (getAttr n₁ "function")).bind (fun s2 =>
          some (pushLeave s2 i₁))) ∧
    visit H (f + 1) st (.vref i₂) =
      (visit H f (pushEnter st i₂) (getAttr n₂ "key")).bind (fun s1 =>
        (visit H f s1 (getAttr n₂ "table")).bind (fun s2 =>
          some (pushLeave s2 i₂))) := by
  constructor
  · rw [visit_vref H f st i₁ n₁ h₁ (by simp [hc₁]) (by simp [hc₁])]
    rw [show childrenOf n₁ = [getAttr n₁ "arguments", getAttr n₁ "function"] from by
      simp [childrenOf, hc₁]]
    exact acceptSeq_pair _ _ _ _ _
  · rw [visit_vref H f st i₂ n₂ h₂ (by simp [hc₂]) (by simp [hc₂])]
    rw [show childrenOf n₂ = [getAttr n₂ "key", getAttr n₂ "table"] from by
      simp [childrenOf, hc₂]]
    exact acceptSeq_pair _ _ _ _ _

/-- C5 witness: the evaluation-order theorem at a concrete heap holding a
function call (id 0) and a table lookup (id 1). -/
theorem C5_visit_evaluation_order_witness :
    lk exHeapVisit 0 = some ⟨.FunctionCall,
      [("function", .vref 1), ("arguments", .vref 2), ("is_method", .vbool false)]⟩ ∧
    lk exHeapVisit 1 = some ⟨.GetItem, [("table", .vref 3), ("key", .vstr "f")]⟩ ∧
    (visit exHeapVisit 4 (startVState [] 7) (.vref 0) =
      (visit exHeapVisit 3 (pushEnter (startVState [] 7) 0)
          (getAttr ⟨.FunctionCall,
            [("function", .vref 1), ("arguments", .vref 2),
             ("is_method", .vbool false)]⟩ "arguments")).bind (fun s1 =>
        (visit exHeapVisit 3 s1
            (getAttr ⟨.FunctionCall,
              [("function", .vref 1), ("arguments", .vref 2),
               ("is_method", .vbool false)]⟩ "function")).bind (fun s2 =>
          some (pushLeave s2 0)))) := by
  refine ⟨rfl, rfl, ?_⟩
  exact (C5_visit_evaluation_order exHeapVisit 3 (startVState [] 7) 0 1
    ⟨.FunctionCall, [("function", .vref 1), ("arguments", .vref 2),
      ("is_method", .vbool false)]⟩
    ⟨.GetItem, [("table", .vref 3), ("key", .vstr "f")]⟩ rfl rfl rfl rfl).1

/-- C6: visiting a warp node never recurses into its target block fields.
An `UnconditionalWarp` visits nothing at all; a `ConditionalWarp` visits
exactly its condition; an `IteratorWarp` exactly its variables and
controls; a `NumericLoopWarp` exactly its index and controls.  The
`target`, `true_target`, `false_target`, `body` and `way_out` attributes
appear in no right-hand side: no block reachable only through a warp edge
is entered. -/
theorem C6_warp_targets_not_visited (H : Heap) (f : Nat) (st : VState)
    (i : Nat) (n : Node) (h : lk H i = some n) :
    (n.cls = ClassName.UnconditionalWarp →
      visit H (f + 1) st (.vref i) = some (pushLeave (pushEnter st i) i)) ∧
    (n.cls = ClassName.ConditionalWarp →
      visit H (f + 1) st (.vref i) =
        (visit H f (pushEnter st i) (getAttr n "condition")).bind (fun s1 =>
          some (pushLeave s1 i))) ∧
    (n.cls = ClassName.IteratorWarp →
      visit H (f + 1) st (.vref i) =
        (visit H f (pushEnter st i) (getAttr n "variables")).bind (fun s1 =>
          (visit H f s1 (getAttr n "controls")).bind (fun s2 =>
            some (pushLeave s2 i)))) ∧
    (n.cls = ClassName.NumericLoopWarp →
      visit H (f + 1) st (.vref i) =
        (visit H f (pushEnter st i) (getAttr n "index")).bind (fun s1 =>
          (visit H f s1 (getAttr n "controls")).bind (fun s2 =>
            some (pushLeave s2 i)))) := by
  refine ⟨fun hc => ?_, fun hc => ?_, fun hc => ?_, fun hc => ?_⟩
  · rw [visit_vref H f st i n h (by simp [hc]) (by simp [hc])]
    rw [show childrenOf n = [] from by simp [childrenOf, hc]]
    exact acceptSeq_nil _ _ _
  · rw [visit_vref H f st i n h (by simp [hc]) (by simp [hc])]
    rw [show childrenOf n = [getAttr n "condition"] from by simp [childrenOf, hc]]
    exact acceptSeq_one _ _ _ _
  · rw [visit_vref H f st i n h (by simp [hc]) (by simp [hc])]
    rw [show childrenOf n = [getAttr n "variables", getAttr n "controls"] from by
      simp [childrenOf, hc]]
    exact acceptSeq_pair _ _ _ _ _
  · rw [visit_vref H f st i n h (by simp [hc]) (by simp [hc])]
    rw [show childrenOf n = [getAttr n "index", getAttr n "controls"] from by
      simp [childrenOf, hc]]
    exact acceptSeq_pair _ _ _ _ _

/-- C6 witness: the warp theorem at the four concrete warp nodes of
`exHeapVisit` (ids 10 to 13), whose targets point at the absent id 99. -/
theorem C6_warp_targets_not_visited_witness :
    lk exHeapVisit 10 = some ⟨.UnconditionalWarp,
      [("type", .vint 0), ("target", .vref 99), ("is_uclo", .vbool false)]⟩ ∧
    visit exHeapVisit 4 (startVState [] 7) (.vref 10) =
      some (pushLeave (pushEnter (startVState [] 7) 10) 10) ∧
    visit exHeapVisit 4 (startVState [] 7) (.vref 11) =
      (visit exHeapVisit 3 (pushEnter (startVState [] 7) 11)
          (getAttr ⟨.ConditionalWarp,
            [("condition", .vref 3), ("true_target", .vref 99),
             ("false_target", .vref 99)]⟩ "condition")).bind (fun s1 =>
        some (pushLeave s1 11)) ∧
    visit exHeapVisit 4 (startVState [] 7) (.vref 12) =
      (visit exHeapVisit 3 (pushEnter (startVState [] 7) 12)
          (getAttr ⟨.IteratorWarp,
            [("variables", .vref 2), ("controls", .vnil), ("body", .vref 99),
             ("way_out", .vref 99)]⟩ "variables")).bind (fun s1 =>
        (visit exHeapVisit 3 s1
            (getAttr ⟨.IteratorWarp,
              [("variables", .vref 2), ("controls", .vnil), ("body", .vref 99),
               ("way_out", .vref 99)]⟩ "controls")).bind (fun s2 =>
          some (pushLeave s2 12))) ∧
    visit exHeapVisit 4 (startVState [] 7) (.vref 13) =
      (visit exHeapVisit 3 (pushEnter (startVState [] 7) 13)
          (getAttr ⟨.NumericLoopWarp,
            [("index", .vref 3), ("controls", .vnil), ("body", .vref 99),
             ("way_out", .vref 99)]⟩ "index")).bind (fun s1 =>
        (visit exHeapVisit 3 s1
            (getAttr ⟨.NumericLoopWarp,
              [("index", .vref 3), ("controls", .vnil), ("body", .vref 99),
               ("way_out", .vref 99)]⟩ "controls")).bind (fun s2 =>
          some (pushLeave s2 13))) := by
  refine ⟨rfl, ?_, ?_, ?_, ?_⟩
  · exact (C6_warp_targets_not_visited exHeapVisit 3 (startVState [] 7) 10
      ⟨.UnconditionalWarp,
        [("type", .vint 0), ("target", .vref 99), ("is_uclo", .vbool false)]⟩
      rfl).1 rfl
  · exact (C6_warp_targets_not_visited exHeapVisit 3 (startVState [] 7) 11
      ⟨.ConditionalWarp,
        [("condition", .vref 3), ("true_target", .vref 99),
         ("false_target", .vref 99)]⟩ rfl).2.1 rfl
  · exact (C6_warp_targets_not_visited exHeapVisit 3 (startVState [] 7) 12
      ⟨.IteratorWarp,
        [("variables", .vref 2), ("controls", .vnil), ("body", .vref 99),
         ("way_out", .vref 99)]⟩ rfl).2.2.1 rfl
  · exact (C6_warp_targets_not_visited exHeapVisit 3 (startVState [] 7) 13
      ⟨.NumericLoopWarp,
        [("index", .vref 3), ("controls", .vnil), ("body", .vref 99),
         ("way_out", .vref 99)]⟩ rfl).2.2.2 rfl

/-- Enter counts add over appended traces. -/
theorem countEnter_append (t : Nat) (l1 l2 : List Event) :
    countEnter t (l1 ++ l2) = countEnter t l1 + countEnter t l2 := by
  induction l1 with
  | nil => simp [countEnter]
  | cons e rest ih =>
    cases e with
    | enter u => simp [countEnter, ih]; omega
    | leave u => simp [countEnter, ih]

/-- A table constructor entered by the visitor already adopted leaves the
guard state untouched. -/
theorem normVisitor_same (st : VState) (h : st.curVisitor = some st.visitorId) :
    normVisitor st = st := by
  simp [normVisitor, h]

/-- `GuardStep` is reflexive once the visitor has been adopted. -/
theorem guardStep_rfl (H : Heap) (st : VState)
    (h : st.curVisitor = some st.visitorId) : GuardStep H st st := by
  refine ⟨rfl, h, fun x hx => hx, ⟨[], by simp⟩, fun t _ => ⟨fun _ => rfl, ?_, ?_⟩⟩
  · omega
  · intro hlt
    exact absurd hlt (Nat.lt_irrefl _)

/-- `GuardStep` composes. -/
theorem guardStep_trans (H : Heap) (st₁ st₂ st₃ : VState)
    (A : GuardStep H st₁ st₂) (B : GuardStep H st₂ st₃) : GuardStep H st₁ st₃ := by
  obtain ⟨Avid, Acur, Asub, ⟨ta, hta⟩, Acnt⟩ := A
  obtain ⟨Bvid, Bcur, Bsub, ⟨tb, htb⟩, Bcnt⟩ := B
  refine ⟨Bvid.trans Avid, by rw [Bcur, Avid], fun x hx => Bsub (Asub hx),
    ⟨ta ++ tb, by rw [htb, hta, List.append_assoc]⟩, fun t hTC => ?_⟩
  obtain ⟨A1, A2, A3⟩ := Acnt t hTC
  obtain ⟨B1, B2, B3⟩ := Bcnt t hTC
  have h12 : countEnter t st₁.trace ≤ countEnter t st₂.trace := by
    rw [hta, countEnter_append]; omega
  have h23 : countEnter t st₂.trace ≤ countEnter t st₃.trace := by
    rw [htb, countEnter_append]; omega
  refine ⟨fun hmem => ?_, ?_, fun hlt => ?_⟩
  · rw [B1 (Asub hmem), A1 hmem]
  · by_cases hmem : t ∈ st₁.antiLoop
    · rw [B1 (Asub hmem), A1 hmem]; omega
    · by_cases hup : countEnter t st₁.trace < countEnter t st₂.trace
      · rw [B1 (A3 hup)]; omega
      · omega
  · by_cases hup : countEnter t st₁.trace < countEnter t st₂.trace
    · exact Bsub (A3 hup)
    · exact B3 (by omega)

/-- Recording the enter hook of a node that is not a table constructor is
a `GuardStep`. -/
theorem guardStep_pushEnter (H : Heap) (st : VState) (i : Nat)
    (h : st.curVisitor = some st.visitorId) (hn : ¬ IsTC H i) :
    GuardStep H st (pushEnter st i) := by
  refine ⟨rfl, h, fun x hx => hx, ⟨[.enter i], rfl⟩, fun t hTC => ?_⟩
  have hne : i ≠ t := fun he => hn (he ▸ hTC)
  have : countEnter t (pushEnter st i).trace = countEnter t st.trace := by
    simp [pushEnter, countEnter_append, countEnter, hne]
  refine ⟨fun _ => this, by omega, fun hlt => ?_⟩
  rw [this] at hlt
  exact absurd hlt (Nat.lt_irrefl _)

/-- Recording a leave hook is a `GuardStep`. -/
theorem guardStep_pushLeave (H : Heap) (st : VState) (i : Nat)
    (h : st.curVisitor = some st.visitorId) : GuardStep H st (pushLeave st i) := by
  refine ⟨rfl, h, fun x hx => hx, ⟨[.leave i], rfl⟩, fun t _ => ?_⟩
  have : countEnter t (pushLeave st i).trace = countEnter t st.trace := by
    simp [pushLeave, countEnter_append, countEnter]
  refine ⟨fun _ => this, by omega, fun hlt => ?_⟩
  rw [this] at hlt
  exact absurd hlt (Nat.lt_irrefl _)

/-- The child-visiting fold preserves `GuardStep` when each step does. -/
theorem foldStateM_guard (H : Heap) (f : Nat)
    (IH : ∀ st v st', st.curVisitor = some st.visitorId →
      visit H f st v = some st' → GuardStep H st st') :
    ∀ vs st st', st.curVisitor = some st.visitorId →
      foldStateM (visit H f) st vs = some st' → GuardStep H st st' := by
  intro vs
  induction vs with
  | nil =>
    intro st st' h hv
    simp [foldStateM] at hv
    exact hv ▸ guardStep_rfl H st h
  | cons v rest ih =>
    intro st st' h hv
    simp only [foldStateM] at hv
    cases h1 : visit H f st v with
    | none => rw [h1] at hv; exact absurd hv (by simp)
    | some s1 =>
      rw [h1] at hv
      have A := IH st v s1 h h1
      have hcur : s1.curVisitor = some s1.visitorId := by rw [A.2.1, A.1]
      exact guardStep_trans H st s1 st' A (ih s1 st' hcur hv)

/-- One successful `visit` from an adopted-visitor state is a `GuardStep`:
the `anti_loop` set only grows, and the enter count of every table
constructor rises at most once, freezing once the constructor is in the
set. -/
theorem visit_guard (H : Heap) : ∀ f st v st',
    st.curVisitor = some st.visitorId →
    visit H f st v = some st' → GuardStep H st st' := by
  intro f
  induction f with
  | zero =>
    intro st v st' h hv
    exact absurd hv (by simp [visit])
  | succ f ih =>
    intro st v st' h hv
    match v with
    | .vnil =>
      simp [visit] at hv
      exact hv ▸ guardStep_rfl H st h
    | .vint m =>
      simp [visit] at hv
      exact hv ▸ guardStep_rfl H st h
    | .vbool b =>
      simp [visit] at hv
      exact hv ▸ guardStep_rfl H st h
    | .vstr s =>
      simp [visit] at hv
      exact hv ▸ guardStep_rfl H st h
    | .vlist vs =>
      simp only [visit] at hv
      exact foldStateM_guard H f ih vs st st' h hv
    | .vref i =>
      simp only [visit] at hv
      cases hl : lk H i with
      | none => rw [hl] at hv; exact absurd hv (by simp)
      | some n =>
        rw [hl] at hv
        simp only at hv
        by_cases hno : n.cls = ClassName.NoOp
        · rw [if_pos hno] at hv
          cases hv
          exact guardStep_rfl H st h
        · by_cases htc : n.cls = ClassName.TableConstructor
          · rw [if_neg hno, if_pos htc] at hv
            rw [normVisitor_same st h] at hv
            by_cases hmem : i ∈ st.antiLoop
            · rw [if_pos hmem] at hv
              cases hv
              exact guardStep_rfl H st h
            · rw [if_neg hmem] at hv
              simp only [acceptSeq] at hv
              cases hfold : foldStateM (visit H f)
                  (pushEnter ⟨st.trace, i :: st.antiLoop, st.curVisitor, st.visitorId⟩ i)
                  (childrenOf n) with
              | none => rw [hfold] at hv; exact absurd hv (by simp)
              | some s2 =>
                rw [hfold] at hv
                simp only [Option.some.injEq] at hv
                subst hv
                have hcurA : (pushEnter
                    ⟨st.trace, i :: st.antiLoop, st.curVisitor, st.visitorId⟩ i).curVisitor =
                    some (pushEnter
                    ⟨st.trace, i :: st.antiLoop, st.curVisitor, st.visitorId⟩ i).visitorId := h
                have G := foldStateM_guard H f ih (childrenOf n) _ s2 hcurA hfold
                obtain ⟨Gvid, Gcur, Gsub, ⟨tg, htg⟩, Gcnt⟩ := G
                simp only [pushEnter] at Gvid Gcur Gsub htg Gcnt
                refine ⟨Gvid, Gcur, ?_, ?_, fun t hTC => ?_⟩
                · exact fun x hx => Gsub (List.mem_cons_of_mem i hx)
                · exact ⟨[Event.enter i] ++ tg ++ [Event.leave i],
                    by simp [pushLeave, htg]⟩
                · obtain ⟨G1, G2, G3⟩ := Gcnt t hTC
                  have hcl : countEnter t (pushLeave s2 i).trace = countEnter t s2.trace := by
                    simp [pushLeave, countEnter_append, countEnter]
                  by_cases hti : t = i
                  · subst hti
                    have hmemA : t ∈ t :: st.antiLoop := List.mem_cons_self t _
                    have hfr := G1 hmemA
                    have hE : countEnter t (st.trace ++ [Event.enter t]) =
                        countEnter t st.trace + 1 := by
                      simp [countEnter_append, countEnter]
                    refine ⟨fun hx => absurd hx hmem, ?_, fun _ => ?_⟩
                    · rw [hcl, hfr, hE]
                    · exact Gsub hmemA
                  · have hE : countEnter t (st.trace ++ [Event.enter i]) =
                        countEnter t st.trace := by
                      simp [countEnter_append, countEnter]
                      intro he
                      exact absurd he.symm hti
                    by_cases hmemt : t ∈ st.antiLoop
                    · have hfr := G1 (List.mem_cons_of_mem i hmemt)
                      refine ⟨fun _ => ?_, ?_, fun hlt => ?_⟩
                      · rw [hcl, hfr, hE]
                      · rw [hcl, hfr, hE]; omega
                      · rw [hcl, hfr, hE] at hlt
                        exact absurd hlt (Nat.lt_irrefl _)
                    · refine ⟨fun hx => absurd hx hmemt, ?_, fun hlt => ?_⟩
                      · rw [hcl]; rw [hE] at G2; omega
                      · rw [hcl] at hlt
                        rw [hE] at G3
                        exact G3 hlt
          · rw [if_neg hno, if_neg htc] at hv
            simp only [acceptSeq] at hv
            cases hfold : foldStateM (visit H f) (pushEnter st i) (childrenOf n) with
            | none => rw [hfold] at hv; exact absurd hv (by simp)
            | some s2 =>
              rw [hfold] at hv
              simp only [Option.some.injEq] at hv
              subst hv
              have hnTC : ¬ IsTC H i := by
                rintro ⟨n', hn', hc'⟩
                rw [hl] at hn'
                cases hn'
                exact htc hc'
              have A := guardStep_pushEnter H st i h hnTC
              have hcurA : (pushEnter st i).curVisitor = some (pushEnter st i).visitorId := h
              have B := foldStateM_guard H f ih (childrenOf n) _ s2 hcurA hfold
              have hcurB : s2.curVisitor = some s2.visitorId := by rw [B.2.1, B.1]
              have C := guardStep_pushLeave H s2 i hcurB
              exact guardStep_trans H st s2 _ (guardStep_trans H st (pushEnter st i) s2 A B) C

/-- C9: the table-constructor recursion guard.  (i) A table constructor
already in the process-wide `anti_loop` set is skipped rather than
re-entered, leaving the traversal state untouched.  (ii) While the same
visitor keeps traversing, the set only grows — it is never cleared.
(iii) When a different visitor object begins traversing, reaching a table
constructor clears the set and adopts the new visitor.  (iv) During a
single traversal each table constructor fires its enter hook at most
once.  (v) Concretely, traversing the cyclic table records of `exHeapTC`
terminates. -/
theorem C9_table_constructor_guard (H : Heap) (f : Nat) :
    (∀ st i n, lk H i = some n → n.cls = ClassName.TableConstructor →
      st.curVisitor = some st.visitorId → i ∈ st.antiLoop →
      visit H (f + 1) st (.vref i) = some st) ∧
    (∀ st v st', st.curVisitor = some st.visitorId →
      visit H f st v = some st' → st.antiLoop ⊆ st'.antiLoop) ∧
    (∀ st i n w, lk H i = some n → n.cls = ClassName.TableConstructor →
      st.curVisitor = some w → w ≠ st.visitorId →
      visit H (f + 1) st (.vref i) =
        visit H (f + 1) (⟨st.trace, [], some st.visitorId, st.visitorId⟩ : VState)
          (.vref i)) ∧
    (∀ A vid v st', visit H f (startVState A vid) v = some st' →
      ∀ t, IsTC H t → countEnter t st'.trace ≤ 1) ∧
    (∃ st', visit exHeapTC 11 (⟨[], [], none, 0⟩ : VState) (.vref 0) = some st') := by
  refine ⟨?_, ?_, ?_, ?_, ⟨_, rfl⟩⟩
  · intro st i n hlk hc hcur hmem
    have h1 : ¬ n.cls = ClassName.NoOp := by rw [hc]; simp
    simp only [visit, hlk]
    rw [if_neg h1, if_pos hc, normVisitor_same st hcur, if_pos hmem]
  · intro st v st' hcur hv
    exact (visit_guard H f st v st' hcur hv).2.2.1
  · intro st i n w hlk hc hcur hne
    have h1 : ¬ n.cls = ClassName.NoOp := by rw [hc]; simp
    have e1 : normVisitor st =
        (⟨st.trace, [], some st.visitorId, st.visitorId⟩ : VState) := by
      simp [normVisitor, hcur, hne]
    have e2 : normVisitor (⟨st.trace, [], some st.visitorId, st.visitorId⟩ : VState) =
        (⟨st.trace, [], some st.visitorId, st.visitorId⟩ : VState) :=
      normVisitor_same _ rfl
    simp only [visit, hlk]
    rw [if_neg h1, if_pos hc, if_neg h1, if_pos hc, e1, e2]
  · intro A vid v st' hv t hTC
    have hcur : (startVState A vid).curVisitor = some (startVState A vid).visitorId := rfl
    have G := visit_guard H f (startVState A vid) v st' hcur hv
    obtain ⟨G1, G2, G3⟩ := G.2.2.2.2 t hTC
    have h0 : countEnter t (startVState A vid).trace = 0 := rfl
    by_cases hmem : t ∈ A
    · have := G1 hmem
      omega
    · omega

/-- C9 witness: the guard theorem at the concrete cyclic-table heap — the
skip equation with table 0 already in the set, the clear equation for a
different visitor, the growth of a preloaded set through a full traversal,
and the at-most-once bound on the enter count of table 0, whose traversal
result is spelled out. -/
theorem C9_table_constructor_guard_witness :
    (lk exHeapTC 0 = some ⟨.TableConstructor,
      [("array", .vlist []), ("records", .vlist [.vref 1])]⟩) ∧
    visit exHeapTC 4 (⟨[], [0], some 7, 7⟩ : VState) (.vref 0) =
      some (⟨[], [0], some 7, 7⟩ : VState) ∧
    visit exHeapTC 4 (⟨[], [0], some 3, 7⟩ : VState) (.vref 0) =
      visit exHeapTC 4 (⟨[], [], some 7, 7⟩ : VState) (.vref 0) ∧
    visit exHeapTC 10 (startVState [9] 5) (.vref 0) =
      some (⟨[.enter 0, .enter 1, .enter 2, .enter 3, .leave 3, .leave 2, .leave 1,
        .leave 0], [2, 0, 9], some 5, 5⟩ : VState) ∧
    [9] ⊆ ([2, 0, 9] : List Nat) ∧
    IsTC exHeapTC 0 ∧
    visit exHeapTC 10 (startVState [] 5) (.vref 0) =
      some (⟨[.enter 0, .enter 1, .enter 2, .enter 3, .leave 3, .leave 2, .leave 1,
        .leave 0], [2, 0], some 5, 5⟩ : VState) ∧
    countEnter 0 [.enter 0, .enter 1, .enter 2, .enter 3, .leave 3, .leave 2,
      .leave 1, .leave 0] ≤ 1 := by
  refine ⟨rfl, ?_, ?_, rfl, ?_, ⟨_, rfl, rfl⟩, rfl, ?_⟩
  · exact (C9_table_constructor_guard exHeapTC 3).1
      (⟨[], [0], some 7, 7⟩ : VState) 0
      ⟨.TableConstructor, [("array", .vlist []), ("records", .vlist [.vref 1])]⟩
      rfl rfl rfl (by simp)
  · exact (C9_table_constructor_guard exHeapTC 3).2.2.1
      (⟨[], [0], some 3, 7⟩ : VState) 0
      ⟨.TableConstructor, [("array", .vlist []), ("records", .vlist [.vref 1])]⟩
      3 rfl rfl rfl (by simp)
  · have := (C9_table_constructor_guard exHeapTC 10).2.1
      (startVState [9] 5) (.vref 0)
      (⟨[.enter 0, .enter 1, .enter 2, .enter 3, .leave 3, .leave 2, .leave 1,
        .leave 0], [2, 0, 9], some 5, 5⟩ : VState) rfl rfl
    exact this
  · exact (C9_table_constructor_guard exHeapTC 10).2.2.2.1 [] 5 (.vref 0)
      (⟨[.enter 0, .enter 1, .enter 2, .enter 3, .leave 3, .leave 2, .leave 1,
        .leave 0], [2, 0], some 5, 5⟩ : VState) rfl 0
      ⟨⟨.TableConstructor, [("array", .vlist []), ("records", .vlist [.vref 1])]⟩,
        rfl, rfl⟩

/-- A successful lookup comes from a list entry. -/
theorem lk_mem {α : Type} (l : List (Nat × α)) (i : Nat) (v : α)
    (h : lk l i = some v) : (i, v) ∈ l := by
  induction l with
  | nil => simp [lk] at h
  | cons p rest ih =>
    obtain ⟨k, w⟩ := p
    by_cases hi : i = k
    · subst hi
      simp [lk] at h
      simp [h]
    · rw [lk, if_neg hi] at h
      exact List.mem_cons_of_mem _ (ih h)

/-- A key among the entries looks up to something. -/
theorem lk_of_mem_keys {α : Type} (l : List (Nat × α)) (i : Nat)
    (h : i ∈ l.map Prod.fst) : ∃ v, lk l i = some v := by
  induction l with
  | nil => simp at h
  | cons p rest ih =>
    obtain ⟨k, w⟩ := p
    by_cases hi : i = k
    · exact ⟨w, by simp [lk, hi]⟩
    · simp at h
      rcases h with h | h
      · exact absurd h hi
      · obtain ⟨x, hx⟩ := h
        obtain ⟨v, hv⟩ := ih (List.mem_map.mpr ⟨(i, x), hx, rfl⟩)
        exact ⟨v, by rw [lk, if_neg hi]; exact hv⟩

/-- Keys bounded below a fresh id never look up to anything at it. -/
theorem lk_none_of_bound {α : Type} (l : List (Nat × α)) (bound j : Nat)
    (hb : ∀ p ∈ l, p.1 < bound) (hj : bound ≤ j) : lk l j = none := by
  induction l with
  | nil => rfl
  | cons p rest ih =>
    obtain ⟨k, w⟩ := p
    have hk := hb (k, w) (by simp)
    rw [lk, if_neg (by omega)]
    exact ih (fun q hq => hb q (List.mem_cons_of_mem _ hq))

/-- With pairwise-distinct values, a lookup value determines its key. -/
theorem lk_injective {α : Type} [DecidableEq α] (l : List (Nat × α))
    (hnd : (l.map Prod.snd).Nodup) (i₁ i₂ : Nat) (v : α)
    (h₁ : lk l i₁ = some v) (h₂ : lk l i₂ = some v) : i₁ = i₂ := by
  induction l with
  | nil => simp [lk] at h₁
  | cons p rest ih =>
    obtain ⟨k, w⟩ := p
    simp at hnd
    by_cases hk₁ : i₁ = k
    · subst hk₁
      simp [lk] at h₁
      by_cases hk₂ : i₂ = i₁
      · exact hk₂.symm
      · rw [lk, if_neg hk₂] at h₂
        subst h₁
        exact absurd (lk_mem rest i₂ w h₂) (hnd.1 i₂)
    · rw [lk, if_neg hk₁] at h₁
      by_cases hk₂ : i₂ = k
      · subst hk₂
        simp [lk] at h₂
        subst h₂
        exact absurd (lk_mem rest i₁ w h₁) (hnd.1 i₁)
      · rw [lk, if_neg hk₂] at h₂
        exact ih hnd.2 h₁ h₂

/-- Setting an attribute makes it read back. -/
theorem lks_attrsSet_same (attrs : List (String × Value)) (name : String) (v : Value) :
    lks (attrsSet attrs name v) name = some v := by
  induction attrs with
  | nil => simp [attrsSet, lks]
  | cons p rest ih =>
    obtain ⟨k, w⟩ := p
    by_cases hk : k = name
    · subst hk
      simp [attrsSet, lks]
    · rw [attrsSet, if_neg hk, lks, if_neg (fun he => hk he.symm)]
      exact ih

/-- Setting an attribute leaves the other attributes alone. -/
theorem lks_attrsSet_other (attrs : List (String × Value)) (name other : String)
    (v : Value) (hne : other ≠ name) :
    lks (attrsSet attrs name v) other = lks attrs other := by
  induction attrs with
  | nil => simp [attrsSet, lks, hne]
  | cons p rest ih =>
    obtain ⟨k, w⟩ := p
    by_cases hk : k = name
    · subst hk
      rw [attrsSet, if_pos rfl]
      rw [lks, lks, if_neg (fun he => hne he), if_neg (fun he => hne he)]
    · rw [attrsSet, if_neg hk]
      by_cases ho : other = k
      · subst ho
        simp [lks]
      · rw [lks, if_neg ho, lks, if_neg ho]
        exact ih

/-- `getAttr` after `setAttr` on the same name. -/
theorem getAttr_setAttr_same (n : Node) (name : String) (v : Value) :
    getAttr (setAttr n name v) name = v := by
  simp [getAttr, setAttr, lks_attrsSet_same]

/-- `getAttr` after `setAttr` on another name. -/
theorem getAttr_setAttr_other (n : Node) (name other : String) (v : Value)
    (hne : other ≠ name) : getAttr (setAttr n name v) other = getAttr n other := by
  simp [getAttr, setAttr, lks_attrsSet_other _ _ _ _ hne]

/-- A value match survives any extension of the mapping. -/
theorem valMatch_mono (m m' : List (Nat × Nat)) (v w : Value)
    (he : MapExt m m') (h : ValMatch m v w) : ValMatch m' v w := by
  induction h with
  | vnil => exact .vnil
  | vint n => exact .vint n
  | vbool b => exact .vbool b
  | vstr s => exact .vstr s
  | vref i j hij => exact .vref i j (he i j hij)
  | listNil => exact .listNil
  | listCons v w vs ws _ _ ihv ihvs => exact .listCons v w vs ws ihv ihvs

/-- A node match survives any extension of the mapping. -/
theorem nodeMatch_mono (m m' : List (Nat × Nat)) (n n' : Node)
    (he : MapExt m m') (h : NodeMatch m n n') : NodeMatch m' n n' := by
  obtain ⟨hc, hs, base, hd⟩ := h
  exact ⟨hc, fun name hm => valMatch_mono m m' _ _ he (hs name hm), base, hd⟩

/-- A rebuilt node stays rebuilt when the mapping grows and the heap is
preserved at or above its allocation bound. -/
theorem rebuiltFrom_mono (H : Heap) (st st' : LState) (lo lo' i : Nat)
    (h : RebuiltFrom H st lo i) (he : MapExt st.mapping st'.mapping)
    (hh : ∀ j nd, lo ≤ j → lk st.heap j = some nd → lk st'.heap j = some nd)
    (hlo : lo' ≤ lo) : RebuiltFrom H st' lo' i := by
  obtain ⟨j, n, n', hm, hj, hn, hn', hmatch⟩ := h
  exact ⟨j, n, n', he i j hm, Nat.le_trans hlo hj, hn, hh j n' hj hn',
    nodeMatch_mono _ _ _ _ he hmatch⟩

/-- The fresh object is readable at its id. -/
theorem alloc_lk_same (cls : ClassName) (attrs : List (String × Value)) (st : LState) :
    lk (alloc cls attrs st).2.heap st.next = some ⟨cls, attrs⟩ := by
  simp [alloc, lk]

/-- Allocation preserves every other id. -/
theorem alloc_lk_other (cls : ClassName) (attrs : List (String × Value)) (st : LState)
    (j : Nat) (hne : j ≠ st.next) :
    lk (alloc cls attrs st).2.heap j = lk st.heap j := by
  simp [alloc, lk, hne]

/-- Allocation keeps the heap key bound. -/
theorem alloc_bound (cls : ClassName) (attrs : List (String × Value)) (st : LState)
    (hb : ∀ p ∈ st.heap, p.1 < st.next) :
    ∀ p ∈ (alloc cls attrs st).2.heap, p.1 < (alloc cls attrs st).2.next := by
  intro p hp
  simp only [alloc, List.mem_cons] at hp
  rcases hp with hp | hp
  · subst hp
    simp [alloc]
  · have := hb p hp
    simp [alloc]
    omega

/-- What allocating the constructor helper objects does: the allocator
advances by their number, the mapping is untouched, the key bound is kept,
and every existing object is preserved. -/
theorem allocList_spec (subs : List (ClassName × List (String × Value))) :
    ∀ st : LState, (∀ p ∈ st.heap, p.1 < st.next) →
      (allocList subs st).next = st.next + subs.length ∧
      (allocList subs st).mapping = st.mapping ∧
      (∀ p ∈ (allocList subs st).heap, p.1 < (allocList subs st).next) ∧
      (∀ j nd, lk st.heap j = some nd → lk (allocList subs st).heap j = some nd) := by
  induction subs with
  | nil =>
    intro st hb
    exact ⟨by simp [allocList], rfl, hb, fun _ _ h => h⟩
  | cons p rest ih =>
    intro st hb
    obtain ⟨cls, attrs⟩ := p
    have hstep : allocList ((cls, attrs) :: rest) st = allocList rest (alloc cls attrs st).2 :=
      rfl
    have hnext : (alloc cls attrs st).2.next = st.next + 1 := rfl
    have hmap : (alloc cls attrs st).2.mapping = st.mapping := rfl
    obtain ⟨h1, h2, h3, h4⟩ := ih (alloc cls attrs st).2 (alloc_bound cls attrs st hb)
    rw [hstep]
    refine ⟨?_, ?_, h3, ?_⟩
    · rw [h1, hnext, List.length_cons]
      omega
    · rw [h2, hmap]
    · intro j nd hj
      apply h4
      have hjlt : j < st.next := hb (j, nd) (lk_mem _ _ _ hj)
      rw [alloc_lk_other cls attrs st j (by omega)]
      exact hj

/-- What `subcls()` does: one fresh object carrying the constructor
defaults appears at the returned id, helper objects below it; the mapping
is untouched and every existing object preserved. -/
theorem construct_spec (cls : ClassName) (st : LState)
    (hb : ∀ p ∈ st.heap, p.1 < st.next) :
    st.next ≤ (construct cls st).1 ∧
    (construct cls st).2.next = (construct cls st).1 + 1 ∧
    (construct cls st).2.mapping = st.mapping ∧
    (∀ p ∈ (construct cls st).2.heap, p.1 < (construct cls st).2.next) ∧
    (∀ j nd, lk st.heap j = some nd → lk (construct cls st).2.heap j = some nd) ∧
    lk (construct cls st).2.heap (construct cls st).1 =
      some ⟨cls, ctorMain cls st.next⟩ := by
  obtain ⟨h1, h2, h3, h4⟩ := allocList_spec (ctorSubs cls) st hb
  have hc1 : (construct cls st).1 = (allocList (ctorSubs cls) st).next := rfl
  have hc2 : (construct cls st).2 =
      (alloc cls (ctorMain cls st.next) (allocList (ctorSubs cls) st)).2 := rfl
  have hnext : (construct cls st).2.next = (allocList (ctorSubs cls) st).next + 1 := by
    rw [hc2]; rfl
  refine ⟨by rw [hc1, h1]; omega, by rw [hnext, hc1], by rw [hc2]; exact h2, ?_, ?_, ?_⟩
  · rw [hc2]
    exact alloc_bound cls (ctorMain cls st.next) (allocList (ctorSubs cls) st) h3
  · intro j nd hj
    have hjlt : j < st.next := hb (j, nd) (lk_mem _ _ _ hj)
    rw [hc2, alloc_lk_other cls (ctorMain cls st.next) (allocList (ctorSubs cls) st) j
      (by rw [h1]; omega)]
    exact h4 j nd hj
  · rw [hc2, hc1]
    exact alloc_lk_same cls (ctorMain cls st.next) (allocList (ctorSubs cls) st)

/-- `setattr` on the new heap changes nothing but the named object. -/
theorem heapUpdate_lk_other (nid : Nat) (name : String) (v : Value)
    (h : Heap) (j : Nat) (hne : j ≠ nid) :
    lk (heapUpdate nid name v h) j = lk h j := by
  induction h with
  | nil => rfl
  | cons p rest ih =>
    obtain ⟨k, w⟩ := p
    by_cases hk : k = nid
    · rw [heapUpdate, if_pos hk, lk, lk]
      rw [if_neg (fun he => hne (he.trans hk)), if_neg (fun he => hne (he.trans hk))]
      exact ih
    · rw [heapUpdate, if_neg hk]
      by_cases hj : j = k
      · rw [lk, lk, if_pos hj, if_pos hj]
      · rw [lk, lk, if_neg hj, if_neg hj]
        exact ih

/-- `setattr` on the new heap updates the named object in place. -/
theorem heapUpdate_lk_same (nid : Nat) (name : String) (v : Value)
    (h : Heap) (nd : Node) (hl : lk h nid = some nd) :
    lk (heapUpdate nid name v h) nid = some (setAttr nd name v) := by
  induction h with
  | nil => simp [lk] at hl
  | cons p rest ih =>
    obtain ⟨k, w⟩ := p
    by_cases hk : k = nid
    · rw [heapUpdate, if_pos hk, lk, if_pos hk.symm]
      rw [lk, if_pos hk.symm] at hl
      cases hl
      rfl
    · rw [heapUpdate, if_neg hk, lk, if_neg (fun he => hk he.symm)]
      rw [lk, if_neg (fun he => hk he.symm)] at hl
      exact ih hl

/-- `setattr` keeps the heap key bound. -/
theorem heapUpdate_bound (nid : Nat) (name : String) (v : Value)
    (h : Heap) (bound : Nat) (hb : ∀ p ∈ h, p.1 < bound) :
    ∀ p ∈ heapUpdate nid name v h, p.1 < bound := by
  induction h with
  | nil => intro p hp; simp [heapUpdate] at hp
  | cons q rest ih =>
    obtain ⟨k, w⟩ := q
    intro p hp
    have hk' := hb (k, w) (by simp)
    have hrest : ∀ r ∈ rest, r.1 < bound := fun r hr => hb r (List.mem_cons_of_mem _ hr)
    by_cases hk : k = nid
    · rw [heapUpdate, if_pos hk] at hp
      rcases List.mem_cons.mp hp with hp | hp
      · rw [hp]
        exact hk'
      · exact ih hrest p hp
    · rw [heapUpdate, if_neg hk] at hp
      rcases List.mem_cons.mp hp with hp | hp
      · rw [hp]
        exact hk'
      · exact ih hrest p hp

/-- `setattr` wrapped for the load state: the named object updates. -/
theorem setAttrSt_lk_same (st : LState) (nid : Nat) (name : String) (v : Value)
    (nd : Node) (h : lk st.heap nid = some nd) :
    lk (setAttrSt st nid name v).heap nid = some (setAttr nd name v) :=
  heapUpdate_lk_same nid name v st.heap nd h

/-- `setattr` wrapped for the load state: other objects are untouched. -/
theorem setAttrSt_lk_other (st : LState) (nid : Nat) (name : String) (v : Value)
    (j : Nat) (hne : j ≠ nid) :
    lk (setAttrSt st nid name v).heap j = lk st.heap j :=
  heapUpdate_lk_other nid name v st.heap j hne

/-- `setattr` keeps the class. -/
theorem setAttr_cls (n : Node) (name : String) (v : Value) :
    (setAttr n name v).cls = n.cls := rfl

/-- Mapping extension composes. -/
theorem mapExt_trans (m₁ m₂ m₃ : List (Nat × Nat)) (h₁ : MapExt m₁ m₂)
    (h₂ : MapExt m₂ m₃) : MapExt m₁ m₃ :=
  fun i j h => h₂ i j (h₁ i j h)

/-- Prepending a fresh key extends the mapping. -/
theorem mapExt_prepend (m : List (Nat × Nat)) (i j : Nat)
    (hfresh : i ∉ m.map Prod.fst) : MapExt m ((i, j) :: m) := by
  intro i' j' h
  have hm : i' ∈ m.map Prod.fst := List.mem_map.mpr ⟨(i', j'), lk_mem m i' j' h, rfl⟩
  rw [lk, if_neg (fun he => hfresh (by rw [← he]; exact hm))]
  exact h

/-- Every `_slots` list has pairwise-distinct names. -/
theorem slotsOf_nodup (cls : ClassName) : (slotsOf cls).Nodup := by
  cases cls <;> decide

/-- The load of the serialized elements of a list simulates, elementwise
and in order, when each element load does. -/
theorem simList (H : Heap) (f : Nat)
    (IH : ∀ vis v d vis' st, toDict H f vis v = some (d, vis') → Inv vis st →
      SimPost H f vis v d vis' st) :
    ∀ vs vis ds vis' st, mapStateM (toDict H f) vis vs = some (ds, vis') →
      Inv vis st →
      ∃ ws st', loadList (loadDict f) ds st = some (ws, st') ∧
        Inv vis' st' ∧
        MapExt st.mapping st'.mapping ∧
        HeapExt st.heap st'.heap ∧
        st.next ≤ st'.next ∧
        ValMatch st'.mapping (.vlist vs) (.vlist ws) ∧
        ∃ new, vis' = new ++ vis ∧ ∀ i ∈ new, RebuiltFrom H st' st.next i := by
  intro vs
  induction vs with
  | nil =>
    intro vis ds vis' st h hInv
    rw [mapStateM] at h
    cases h
    exact ⟨[], st, rfl, hInv, fun _ _ hx => hx, fun _ _ hx => hx, Nat.le_refl _,
      .listNil, [], rfl, by simp⟩
  | cons v rest ihrest =>
    intro vis ds vis' st h hInv
    rw [mapStateM] at h
    split at h
    · exact Option.noConfusion h
    · rename_i d₁ vis₁ h1
      split at h
      · exact Option.noConfusion h
      · rename_i ds₁ vis₂ h2
        simp only [Option.some.injEq, Prod.mk.injEq] at h
        obtain ⟨hds, hvis⟩ := h
        subst hds
        subst hvis
        obtain ⟨w, st₁, hload1, hInv1, hme1, hhe1, hnx1, hvm1, new₁, hv1, hreb1⟩ :=
          IH vis v d₁ vis₁ st h1 hInv
        obtain ⟨ws, st₂, hload2, hInv2, hme2, hhe2, hnx2, hvm2, new₂, hv2, hreb2⟩ :=
          ihrest vis₁ ds₁ vis₂ st₁ h2 hInv1
        refine ⟨w :: ws, st₂, ?_, hInv2, mapExt_trans _ _ _ hme1 hme2,
          fun j nd hx => hhe2 j nd (hhe1 j nd hx), Nat.le_trans hnx1 hnx2,
          .listCons _ _ _ _ (valMatch_mono _ _ _ _ hme2 hvm1) hvm2,
          new₂ ++ new₁, ?_, ?_⟩
        · simp only [loadList, hload1, hload2]
        · rw [hv2, hv1, List.append_assoc]
        · intro i hi
          rcases List.mem_append.mp hi with hi | hi
          · exact rebuiltFrom_mono H st₂ st₂ st₁.next st.next i (hreb2 i hi)
              (fun _ _ hx => hx) (fun _ _ _ hx => hx) hnx1
          · exact rebuiltFrom_mono H st₁ st₂ st.next st.next i (hreb1 i hi) hme2
              (fun j nd _ hx => hhe2 j nd hx) (Nat.le_refl _)

/-- The `setattr` loop of `load_dict` simulates the slot serialization
loop of `to_dict`: after it, the freshly constructed object `rid` carries
matching values on every processed slot and its constructor defaults on
every other attribute, while the rest of the heap is untouched. -/
theorem simSlots (H : Heap) (f : Nat)
    (IH : ∀ vis v d vis' st, toDict H f vis v = some (d, vis') → Inv vis st →
      SimPost H f vis v d vis' st) :
    ∀ names (n : Node) rid ds vis vis' st nd,
      names.Nodup →
      slotsDict (toDict H f) n vis names = some (ds, vis') →
      Inv vis st →
      rid < st.next →
      lk st.heap rid = some nd →
      ∃ st'', loadSlots (loadDict f) ds rid st = some st'' ∧
        Inv vis' st'' ∧
        MapExt st.mapping st''.mapping ∧
        (∀ j nd', j ≠ rid → lk st.heap j = some nd' → lk st''.heap j = some nd') ∧
        st.next ≤ st''.next ∧
        (∃ nd'', lk st''.heap rid = some nd'' ∧ nd''.cls = nd.cls ∧
          (∀ name ∈ names, ValMatch st''.mapping (getAttr n name) (getAttr nd'' name)) ∧
          (∀ name, name ∉ names → getAttr nd'' name = getAttr nd name)) ∧
        ∃ new, vis' = new ++ vis ∧ ∀ i ∈ new, RebuiltFrom H st'' st.next i := by
  intro names
  induction names with
  | nil =>
    intro n rid ds vis vis' st nd hnodup h hInv hrid hnd
    rw [slotsDict] at h
    cases h
    exact ⟨st, rfl, hInv, fun _ _ hx => hx, fun j nd' _ hx => hx, Nat.le_refl _,
      ⟨nd, hnd, rfl, by simp, fun _ _ => rfl⟩, [], rfl, by simp⟩
  | cons name rest ihrest =>
    intro n rid ds vis vis' st nd hnodup h hInv hrid hnd
    rw [slotsDict] at h
    split at h
    · exact Option.noConfusion h
    · rename_i d₁ vis₁ h1
      split at h
      · exact Option.noConfusion h
      · rename_i ds₁ vis₂ h2
        simp only [Option.some.injEq, Prod.mk.injEq] at h
        obtain ⟨hds, hvis⟩ := h
        subst hds
        subst hvis
        obtain ⟨hname_rest, hrest_nodup⟩ := List.nodup_cons.mp hnodup
        obtain ⟨w, st₁, hload1, hInv1, hme1, hhe1, hnx1, hvm1, new₁, hv1, hreb1⟩ :=
          IH vis (getAttr n name) d₁ vis₁ st h1 hInv
        have hnd1 : lk st₁.heap rid = some nd := hhe1 rid nd hnd
        have hndA : lk (setAttrSt st₁ rid name w).heap rid = some (setAttr nd name w) :=
          setAttrSt_lk_same st₁ rid name w nd hnd1
        have hInvA : Inv vis₁ (setAttrSt st₁ rid name w) := by
          obtain ⟨i1, i2, i3, i4, i5⟩ := hInv1
          exact ⟨i1, i2, i3, i4, heapUpdate_bound rid name w st₁.heap st₁.next i5⟩
        have hridA : rid < (setAttrSt st₁ rid name w).next := Nat.lt_of_lt_of_le hrid hnx1
        obtain ⟨st₂, hload2, hInv2, hme2, hhex2, hnx2,
          ⟨nd₂, hnd₂, hcls₂, hslot₂, hother₂⟩, new₂, hv2, hreb2⟩ :=
          ihrest n rid ds₁ vis₁ vis₂ (setAttrSt st₁ rid name w) (setAttr nd name w)
            hrest_nodup h2 hInvA hridA hndA
        refine ⟨st₂, ?_, hInv2, mapExt_trans _ _ _ hme1 hme2, ?_,
          Nat.le_trans hnx1 hnx2, ⟨nd₂, hnd₂, hcls₂, ?_, ?_⟩, new₂ ++ new₁, ?_, ?_⟩
        · simp only [loadSlots, hload1, hload2]
        · intro j nd' hne hx
          apply hhex2 j nd' hne
          rw [setAttrSt_lk_other st₁ rid name w j hne]
          exact hhe1 j nd' hx
        · intro nm hm
          rcases List.mem_cons.mp hm with hmn | hm
          · subst hmn
            have hval : getAttr nd₂ nm = w := by
              rw [hother₂ nm hname_rest, getAttr_setAttr_same]
            rw [hval]
            exact valMatch_mono _ _ _ _ hme2 hvm1
          · exact hslot₂ nm hm
        · intro nm hnm
          have hne : nm ≠ name := fun he => hnm (he ▸ List.mem_cons_self nm rest)
          have hnr : nm ∉ rest := fun hm => hnm (List.mem_cons_of_mem _ hm)
          rw [hother₂ nm hnr, getAttr_setAttr_other nd name nm w hne]
        · rw [hv2, hv1, List.append_assoc]
        · intro i hi
          rcases List.mem_append.mp hi with hi | hi
          · exact rebuiltFrom_mono H st₂ st₂ (setAttrSt st₁ rid name w).next st.next i
              (hreb2 i hi) (fun _ _ hx => hx) (fun _ _ _ hx => hx)
              (Nat.le_trans hnx1 (Nat.le_refl _))
          · refine rebuiltFrom_mono H st₁ st₂ st.next st.next i (hreb1 i hi) hme2
              (fun j nd' hj hx => ?_) (Nat.le_refl _)
            have hjr : rid < j := Nat.lt_of_lt_of_le hrid hj
            have hne : j ≠ rid := fun he => Nat.lt_irrefl rid (by rw [he] at hjr; exact hjr)
            apply hhex2 j nd' hne
            rw [setAttrSt_lk_other st₁ rid name w j hne]
            exact hx

/-- The simulation: whatever `to_dict` serializes, `load_dict` rebuilds —
structurally equal on every slot through the id mapping, constructor
defaults elsewhere, sharing preserved because equal original ids load
through one mapping entry. -/
theorem sim (H : Heap) : ∀ f vis v d vis' st,
    toDict H f vis v = some (d, vis') → Inv vis st → SimPost H f vis v d vis' st := by
  intro f
  induction f with
  | zero =>
    intro vis v d vis' st h _
    exact absurd h (by simp [toDict])
  | succ f ih =>
    intro vis v d vis' st h hInv
    match v with
    | .vnil =>
      simp only [toDict, Option.some.injEq, Prod.mk.injEq] at h
      obtain ⟨hd, hv⟩ := h
      subst hd
      subst hv
      exact ⟨.vnil, st, rfl, hInv, fun _ _ hx => hx, fun _ _ hx => hx, Nat.le_refl _,
        .vnil, [], rfl, by simp⟩
    | .vint m =>
      simp only [toDict, Option.some.injEq, Prod.mk.injEq] at h
      obtain ⟨hd, hv⟩ := h
      subst hd
      subst hv
      exact ⟨.vint m, st, rfl, hInv, fun _ _ hx => hx, fun _ _ hx => hx, Nat.le_refl _,
        .vint m, [], rfl, by simp⟩
    | .vbool b =>
      simp only [toDict, Option.some.injEq, Prod.mk.injEq] at h
      obtain ⟨hd, hv⟩ := h
      subst hd
      subst hv
      exact ⟨.vbool b, st, rfl, hInv, fun _ _ hx => hx, fun _ _ hx => hx, Nat.le_refl _,
        .vbool b, [], rfl, by simp⟩
    | .vstr s =>
      simp only [toDict, Option.some.injEq, Prod.mk.injEq] at h
      obtain ⟨hd, hv⟩ := h
      subst hd
      subst hv
      exact ⟨.vstr s, st, rfl, hInv, fun _ _ hx => hx, fun _ _ hx => hx, Nat.le_refl _,
        .vstr s, [], rfl, by simp⟩
    | .vlist vs =>
      simp only [toDict] at h
      split at h
      · exact Option.noConfusion h
      · rename_i ds₀ vis₀ hm
        simp only [Option.some.injEq, Prod.mk.injEq] at h
        obtain ⟨hd, hv⟩ := h
        subst hd
        subst hv
        obtain ⟨ws, st', hload, hInv', hme, hhe, hnx, hvm, new, hvis, hreb⟩ :=
          simList H f ih vs vis ds₀ vis₀ st hm hInv
        exact ⟨.vlist ws, st', by simp only [loadDict, hload], hInv', hme, hhe, hnx,
          hvm, new, hvis, hreb⟩
    | .vref i =>
      simp only [toDict] at h
      by_cases hmem : i ∈ vis
      · rw [if_pos hmem] at h
        simp only [Option.some.injEq, Prod.mk.injEq] at h
        obtain ⟨hd, hv⟩ := h
        subst hd
        subst hv
        obtain ⟨i1, i2, i3, i4, i5⟩ := hInv
        obtain ⟨j, hj⟩ := lk_of_mem_keys st.mapping i (by rw [i1]; exact hmem)
        exact ⟨.vref j, st, by simp only [loadDict, hj], ⟨i1, i2, i3, i4, i5⟩,
          fun _ _ hx => hx, fun _ _ hx => hx, Nat.le_refl _, .vref i j hj, [], rfl,
          by simp⟩
      · rw [if_neg hmem] at h
        split at h
        · exact Option.noConfusion h
        · rename_i n hn
          split at h
          · exact Option.noConfusion h
          · rename_i ds₀ vis₀ hs
            simp only [Option.some.injEq, Prod.mk.injEq] at h
            obtain ⟨hd, hv⟩ := h
            subst hd
            subst hv
            obtain ⟨i1, i2, i3, i4, i5⟩ := hInv
            obtain ⟨hc1, hc2, hc3, hc4, hc5, hc6⟩ := construct_spec n.cls st i5
            rcases hcons : construct n.cls st with ⟨rid, stC⟩
            simp only [hcons] at hc1 hc2 hc3 hc4 hc5 hc6
            have hInv₂ : Inv (i :: vis) ⟨stC.heap, (i, rid) :: stC.mapping, stC.next⟩ := by
              refine ⟨?_, List.nodup_cons.mpr ⟨hmem, i2⟩, ?_, ?_, ?_⟩
              · show ((i, rid) :: stC.mapping).map Prod.fst = i :: vis
                rw [hc3]
                simp [i1]
              · intro p hp
                rcases List.mem_cons.mp hp with hp | hp
                · subst hp
                  show rid < stC.next
                  omega
                · rw [hc3] at hp
                  have := i3 p hp
                  show p.2 < stC.next
                  omega
              · show ((i, rid) :: stC.mapping).map Prod.snd |>.Nodup
                rw [hc3]
                refine List.nodup_cons.mpr ⟨?_, i4⟩
                intro hmem'
                obtain ⟨p, hp, hps⟩ := List.mem_map.mp hmem'
                have := i3 p hp
                omega
              · exact hc4
            have hrid₂ : rid < (⟨stC.heap, (i, rid) :: stC.mapping, stC.next⟩ : LState).next := by
              show rid < stC.next
              omega
            have hnd₂ : lk (⟨stC.heap, (i, rid) :: stC.mapping, stC.next⟩ : LState).heap rid =
                some ⟨n.cls, ctorMain n.cls st.next⟩ := hc6
            obtain ⟨st₃, hload3, hInv3, hme3, hhex3, hnx3,
              ⟨nd₃, hnd₃, hcls₃, hslot₃, hother₃⟩, new₃, hv3, hreb3⟩ :=
              simSlots H f ih (slotsOf n.cls) n rid ds₀ (i :: vis) vis₀
                ⟨stC.heap, (i, rid) :: stC.mapping, stC.next⟩
                ⟨n.cls, ctorMain n.cls st.next⟩ (slotsOf_nodup n.cls) hs hInv₂ hrid₂ hnd₂
            have hlk_i : lk ((i, rid) :: stC.mapping) i = some rid := by simp [lk]
            have hme_pre : MapExt st.mapping ((i, rid) :: stC.mapping) := by
              rw [hc3]
              exact mapExt_prepend st.mapping i rid (by rw [i1]; exact hmem)
            refine ⟨.vref rid, st₃, ?_, hInv3, ?_, ?_, ?_, ?_, new₃ ++ [i], ?_, ?_⟩
            · simp only [loadDict, hcons, hload3]
            · exact mapExt_trans _ _ _ hme_pre hme3
            · intro j nd' hx
              have hjb : j < st.next := i5 (j, nd') (lk_mem _ _ _ hx)
              have hne : j ≠ rid := by omega
              exact hhex3 j nd' hne (hc5 j nd' hx)
            · have h2 : st.next ≤ stC.next := by omega
              exact Nat.le_trans h2 hnx3
            · exact .vref i rid (hme3 i rid hlk_i)
            · rw [hv3]
              simp
            · intro i' hi'
              rcases List.mem_append.mp hi' with hi' | hi'
              · refine rebuiltFrom_mono H st₃ st₃
                  (⟨stC.heap, (i, rid) :: stC.mapping, stC.next⟩ : LState).next st.next i'
                  (hreb3 i' hi') (fun _ _ hx => hx) (fun _ _ _ hx => hx) ?_
                show st.next ≤ stC.next
                omega
              · rw [List.mem_singleton] at hi'
                subst hi'
                refine ⟨rid, n, nd₃, hme3 i' rid hlk_i, hc1, hn, hnd₃, ?_, ?_, ?_⟩
                · exact hcls₃
                · exact hslot₃
                · exact ⟨st.next, fun name hns => hother₃ name hns⟩

/-- A state-threading map over a step that only extends the visited list
itself only extends the visited list. -/
theorem mapStateM_extends {α β : Type}
    (g : List Nat → α → Option (β × List Nat))
    (hg : ∀ vis a b vis', g vis a = some (b, vis') → ∃ new, vis' = new ++ vis) :
    ∀ (as : List α) vis bs vis', mapStateM g vis as = some (bs, vis') →
      ∃ new, vis' = new ++ vis := by
  intro as
  induction as with
  | nil =>
    intro vis bs vis' h
    rw [mapStateM] at h
    cases h
    exact ⟨[], rfl⟩
  | cons a rest ihr =>
    intro vis bs vis' h
    rw [mapStateM] at h
    split at h
    · exact Option.noConfusion h
    · rename_i b vis₁ h1
      split at h
      · exact Option.noConfusion h
      · rename_i bs₁ vis₂ h2
        simp only [Option.some.injEq, Prod.mk.injEq] at h
        obtain ⟨-, hv⟩ := h
        subst hv
        obtain ⟨n1, hn1⟩ := hg vis a b vis₁ h1
        obtain ⟨n2, hn2⟩ := ihr vis₁ bs₁ vis₂ h2
        exact ⟨n2 ++ n1, by rw [hn2, hn1, List.append_assoc]⟩

/-- The slot serialization loop only extends the visited list. -/
theorem slotsDict_extends (g : List Nat → Value → Option (DictVal × List Nat))
    (hg : ∀ vis v d vis', g vis v = some (d, vis') → ∃ new, vis' = new ++ vis) :
    ∀ (names : List String) (n : Node) vis ds vis',
      slotsDict g n vis names = some (ds, vis') → ∃ new, vis' = new ++ vis := by
  intro names
  induction names with
  | nil =>
    intro n vis ds vis' h
    rw [slotsDict] at h
    cases h
    exact ⟨[], rfl⟩
  | cons name rest ihr =>
    intro n vis ds vis' h
    rw [slotsDict] at h
    split at h
    · exact Option.noConfusion h
    · rename_i d₁ vis₁ h1
      split at h
      · exact Option.noConfusion h
      · rename_i ds₁ vis₂ h2
        simp only [Option.some.injEq, Prod.mk.injEq] at h
        obtain ⟨-, hv⟩ := h
        subst hv
        obtain ⟨n1, hn1⟩ := hg vis (getAttr n name) d₁ vis₁ h1
        obtain ⟨n2, hn2⟩ := ihr n vis₁ ds₁ vis₂ h2
        exact ⟨n2 ++ n1, by rw [hn2, hn1, List.append_assoc]⟩

/-- `to_dict` only ever adds to the visited set. -/
theorem toDict_extends (H : Heap) : ∀ f vis v d vis',
    toDict H f vis v = some (d, vis') → ∃ new, vis' = new ++ vis := by
  intro f
  induction f with
  | zero =>
    intro vis v d vis' h
    exact absurd h (by simp [toDict])
  | succ f ih =>
    intro vis v d vis' h
    match v with
    | .vnil =>
      simp only [toDict, Option.some.injEq, Prod.mk.injEq] at h
      exact ⟨[], h.2.symm⟩
    | .vint m =>
      simp only [toDict, Option.some.injEq, Prod.mk.injEq] at h
      exact ⟨[], h.2.symm⟩
    | .vbool b =>
      simp only [toDict, Option.some.injEq, Prod.mk.injEq] at h
      exact ⟨[], h.2.symm⟩
    | .vstr s =>
      simp only [toDict, Option.some.injEq, Prod.mk.injEq] at h
      exact ⟨[], h.2.symm⟩
    | .vlist vs =>
      simp only [toDict] at h
      split at h
      · exact Option.noConfusion h
      · rename_i ds₀ vis₀ hm
        simp only [Option.some.injEq, Prod.mk.injEq] at h
        obtain ⟨-, hv⟩ := h
        subst hv
        exact mapStateM_extends (toDict H f) (fun vis v d vis' hx => ih vis v d vis' hx)
          vs vis ds₀ vis₀ hm
    | .vref i =>
      simp only [toDict] at h
      by_cases hmem : i ∈ vis
      · rw [if_pos hmem] at h
        simp only [Option.some.injEq, Prod.mk.injEq] at h
        exact ⟨[], h.2.symm⟩
      · rw [if_neg hmem] at h
        split at h
        · exact Option.noConfusion h
        · rename_i n hn
          split at h
          · exact Option.noConfusion h
          · rename_i ds₀ vis₀ hs
            simp only [Option.some.injEq, Prod.mk.injEq] at h
            obtain ⟨-, hv⟩ := h
            subst hv
            obtain ⟨new, hnew⟩ := slotsDict_extends (toDict H f)
              (fun vis v d vis' hx => ih vis v d vis' hx) (slotsOf n.cls) n (i :: vis)
              ds₀ vis₀ hs
            exact ⟨new ++ [i], by rw [hnew]; simp⟩

/-- Serializing a node puts its id into the visited set. -/
theorem toDict_root_mem (H : Heap) (f : Nat) (vis : List Nat) (i : Nat)
    (d : DictVal) (vis' : List Nat)
    (h : toDict H f vis (.vref i) = some (d, vis')) : i ∈ vis' := by
  match f with
  | 0 => exact absurd h (by simp [toDict])
  | f + 1 =>
    simp only [toDict] at h
    by_cases hmem : i ∈ vis
    · rw [if_pos hmem] at h
      simp only [Option.some.injEq, Prod.mk.injEq] at h
      rw [← h.2]
      exact hmem
    · rw [if_neg hmem] at h
      split at h
      · exact Option.noConfusion h
      · rename_i n hn
        split at h
        · exact Option.noConfusion h
        · rename_i ds₀ vis₀ hs
          simp only [Option.some.injEq, Prod.mk.injEq] at h
          obtain ⟨-, hv⟩ := h
          subst hv
          obtain ⟨new, hnew⟩ := slotsDict_extends (toDict H f)
            (fun vis v d vis' hx => toDict_extends H f vis v d vis' hx)
            (slotsOf n.cls) n (i :: vis) ds₀ vis₀ hs
          rw [hnew]
          simp

/-- C1: round trip of AST serialization.  Serializing any node graph with
`to_dict` and loading the result back with `load_dict` yields a
structurally equal graph: the load succeeds, the id mapping sends the root
to the loaded root, every serialized node is rebuilt with the same class
and slot-for-slot matching values (`RebuiltFrom`, which carries
`NodeMatch`), and the mapping is injective.  Sharing is preserved through
the `Ref` sentinel: two fields that held the same original reference load
through the single mapping entry of that id and so alias the same new
node, and distinct originals stay distinct by injectivity. -/
theorem C1_serialization_roundtrip (H : Heap) (root f : Nat) (d : DictVal)
    (vis : List Nat) (h : toDict H f [] (.vref root) = some (d, vis)) :
    ∃ rid st,
      loadDict f d initLState = some (.vref rid, st) ∧
      lk st.mapping root = some rid ∧
      root ∈ vis ∧
      (∀ i ∈ vis, RebuiltFrom H st 0 i) ∧
      (∀ i₁ i₂ j, lk st.mapping i₁ = some j → lk st.mapping i₂ = some j → i₁ = i₂) := by
  have hInv0 : Inv [] initLState :=
    ⟨rfl, List.nodup_nil, by simp [initLState], by simp [initLState], by simp [initLState]⟩
  obtain ⟨v', st, hload, hInv, hme, hhe, hnx, hvm, new, hvis, hreb⟩ :=
    sim H f [] (.vref root) d vis initLState h hInv0
  rw [List.append_nil] at hvis
  subst hvis
  cases hvm with
  | vref i j hj =>
    refine ⟨j, st, hload, hj, toDict_root_mem H f [] root d vis h, ?_, ?_⟩
    · intro i hi
      exact hreb i hi
    · intro i₁ i₂ j' h₁ h₂
      exact lk_injective st.mapping hInv.2.2.2.1 i₁ i₂ j' h₁ h₂

/-- C1 witness: the round-trip theorem at the concrete cyclic heap
`exHeapRT` — block 0 warps to node 1 whose target refers back to block 0,
so the serialized form ends in a `Ref` marker, spelled out below. -/
theorem C1_serialization_roundtrip_witness :
    toDict exHeapRT 4 [] (.vref 0) =
      some (.dnode .Block 0
        [("index", .dint 3),
         ("first_address", .dint 0),
         ("last_address", .dint 5),
         ("contents", .dlist []),
         ("warp", .dnode .UnconditionalWarp 1
           [("type", .dint 0), ("target", .dref 0), ("is_uclo", .dbool false)]),
         ("loop", .dbool false)], [1, 0]) ∧
    (∃ rid st,
      loadDict 4 (.dnode .Block 0
        [("index", .dint 3),
         ("first_address", .dint 0),
         ("last_address", .dint 5),
         ("contents", .dlist []),
         ("warp", .dnode .UnconditionalWarp 1
           [("type", .dint 0), ("target", .dref 0), ("is_uclo", .dbool false)]),
         ("loop", .dbool false)]) initLState = some (.vref rid, st) ∧
      lk st.mapping 0 = some rid ∧
      0 ∈ ([1, 0] : List Nat) ∧
      (∀ i ∈ ([1, 0] : List Nat), RebuiltFrom exHeapRT st 0 i) ∧
      (∀ i₁ i₂ j, lk st.mapping i₁ = some j → lk st.mapping i₂ = some j → i₁ = i₂)) :=
  ⟨rfl, C1_serialization_roundtrip exHeapRT 0 4 _ _ rfl⟩

/-- C10: round-tripping a `Block` reproduces exactly the fields in
`Block._slots` (index, first_address, last_address, contents, warp, loop)
— those match the original through the id mapping — while every other
attribute of the loaded copy holds the constructor default; in particular
`warpins_count` is 0 regardless of the original value stored in the
serialized block. -/
theorem C10_block_roundtrip (H : Heap) (i f : Nat) (attrs : List (String × Value))
    (d : DictVal) (vis : List Nat)
    (hlk : lk H i = some ⟨.Block, attrs⟩)
    (h : toDict H f [] (.vref i) = some (d, vis)) :
    ∃ rid st nd,
      loadDict f d initLState = some (.vref rid, st) ∧
      lk st.heap rid = some nd ∧
      nd.cls = ClassName.Block ∧
      (∀ name ∈ slotsOf ClassName.Block,
        ValMatch st.mapping (getAttr ⟨.Block, attrs⟩ name) (getAttr nd name)) ∧
      getAttr nd "warpins_count" = .vint 0 ∧
      (∀ name, name ∉ slotsOf ClassName.Block →
        getAttr nd name = getAttr ⟨ClassName.Block, ctorMain ClassName.Block 0⟩ name) := by
  have hInv0 : Inv [] initLState :=
    ⟨rfl, List.nodup_nil, by simp [initLState], by simp [initLState], by simp [initLState]⟩
  obtain ⟨v', st, hload, hInv, hme, hhe, hnx, hvm, new, hvis, hreb⟩ :=
    sim H f [] (.vref i) d vis initLState h hInv0
  rw [List.append_nil] at hvis
  subst hvis
  cases hvm with
  | vref i' j hj =>
    obtain ⟨j', n, nd, hmap, hlo, hn, hnd, hmatch⟩ :=
      hreb i (toDict_root_mem H f [] i d vis h)
    rw [hlk] at hn
    cases hn
    have hjj : j' = j := by
      rw [hmap] at hj
      exact (Option.some.injEq _ _).mp hj
    subst hjj
    obtain ⟨hcls, hslots, base, hdflt⟩ := hmatch
    refine ⟨j', st, nd, hload, hnd, hcls, hslots, ?_, ?_⟩
    · have hns : "warpins_count" ∉ slotsOf ClassName.Block := by decide
      rw [hdflt "warpins_count" hns]
      rfl
    · intro name hns
      rw [hdflt name hns]
      rfl

/-- C10 witness: the block round-trip theorem at the concrete heap
`exHeapRT`, whose block stores `warpins_count = 7`; the loaded copy holds
0 there. -/
theorem C10_block_roundtrip_witness :
    lk exHeapRT 0 = some ⟨.Block,
      [("index", .vint 3), ("warp", .vref 1), ("contents", .vlist []),
       ("first_address", .vint 0), ("last_address", .vint 5),
       ("warpins_count", .vint 7), ("loop", .vbool false)]⟩ ∧
    getAttr ⟨.Block,
      [("index", .vint 3), ("warp", .vref 1), ("contents", .vlist []),
       ("first_address", .vint 0), ("last_address", .vint 5),
       ("warpins_count", .vint 7), ("loop", .vbool false)]⟩ "warpins_count" = .vint 7 ∧
    (∃ rid st nd,
      loadDict 4 (.dnode .Block 0
        [("index", .dint 3),
         ("first_address", .dint 0),
         ("last_address", .dint 5),
         ("contents", .dlist []),
         ("warp", .dnode .UnconditionalWarp 1
           [("type", .dint 0), ("target", .dref 0), ("is_uclo", .dbool false)]),
         ("loop", .dbool false)]) initLState = some (.vref rid, st) ∧
      lk st.heap rid = some nd ∧
      nd.cls = ClassName.Block ∧
      (∀ name ∈ slotsOf ClassName.Block,
        ValMatch st.mapping
          (getAttr ⟨.Block,
            [("index", .vint 3), ("warp", .vref 1), ("contents", .vlist []),
             ("first_address", .vint 0), ("last_address", .vint 5),
             ("warpins_count", .vint 7), ("loop", .vbool false)]⟩ name)
          (getAttr nd name)) ∧
      getAttr nd "warpins_count" = .vint 0 ∧
      (∀ name, name ∉ slotsOf ClassName.Block →
        getAttr nd name = getAttr ⟨ClassName.Block, ctorMain ClassName.Block 0⟩ name)) :=
  ⟨rfl, rfl, C10_block_roundtrip exHeapRT 0 4 _ _ _ rfl rfl⟩

end LJD
